import Mathlib

/-!
Verification development for the `bullet` symbolic algebra engine.

The embedding mirrors the Rust sources:
* `src/src/node.rs` — the interning store (`Cache`, `NodeRc`) and the node shape;
  the builder's node shape (`Var` / `Func` / `Poly` / `Tuple`) is the one the
  spec designates as authoritative.
* `src/src/poly.rs` — the canonical multivariate polynomial (`Poly`), a map from
  monomial bases to nonzero rational coefficients.
* `src/core/src/builder.rs` — the expression builder.

Modelling conventions:
* Rust's `HashMap<Base, Rational>` is extensional (its `PartialEq` compares
  contents irrespective of bucket order), so the polynomial map is embedded as
  an association list kept sorted by a fixed total order on keys; two maps are
  equal as Rust values iff their canonical representations are equal.
* Rust's `Rational` (an external exact-arithmetic crate, out of scope per the
  spec) is embedded as `ℚ`.
* `NodeRc` handles are identified with their underlying structural node value in
  the builder-level model; the cache-level model (`Cache.intern`) justifies this
  by proving handle equality coincides with structural equality.
* Machine integers (`i64`, `i32` exponents) are embedded as `Int`; the `i64`
  range checks that Rust's string parsing and `10^k` computation perform are
  modelled explicitly where a claim depends on them.
* A Rust panic (`todo!`, `unwrap`, `expect`, `assert`) is modelled as the
  distinguished outcome `Error.panicked msg`: it represents a crash, not one of
  the returned error kinds of the spec's §7 table.
-/

namespace Bullet

/- Batteries marks the four primitive `Rat` operations `@[irreducible]`, which
blocks `decide`-style evaluation of concrete rational arithmetic; restore the
default reducibility for this verification development. -/
attribute [local semireducible] Rat.mul Rat.add Rat.sub Rat.inv

/-! ## Generic ordering helpers -/

/-- Three-way comparison for any linearly ordered type (models Rust `Ord::cmp`
on primitive components such as integers and characters). -/
def lcmp {α : Type} [LinearOrder α] (a b : α) : Ordering :=
  if a < b then .lt else if b < a then .gt else .eq

theorem lcmp_eq_iff {α : Type} [LinearOrder α] (a b : α) :
    lcmp a b = .eq ↔ a = b := by
  unfold lcmp
  rcases lt_trichotomy a b with h | h | h
  · simp [h, h.ne, h.asymm]
  · simp [h]
  · simp [h, h.ne', h.asymm]

theorem lcmp_refl {α : Type} [LinearOrder α] (a : α) : lcmp a a = .eq :=
  (lcmp_eq_iff a a).2 rfl

theorem lcmp_swap {α : Type} [LinearOrder α] (a b : α) :
    (lcmp a b).swap = lcmp b a := by
  unfold lcmp
  rcases lt_trichotomy a b with h | h | h
  · simp [h, h.asymm, Ordering.swap]
  · simp [h, lt_irrefl, Ordering.swap]
  · simp [h, h.asymm, Ordering.swap]

theorem lcmp_lt_trans {α : Type} [LinearOrder α] {a b c : α}
    (h₁ : lcmp a b = .lt) (h₂ : lcmp b c = .lt) : lcmp a c = .lt := by
  unfold lcmp at *
  split at h₁
  · split at h₂
    · simp [lt_trans ‹a < b› ‹b < c›]
    · split at h₂ <;> simp_all
  · split at h₁ <;> simp_all

theorem lcmp_lt_iff {α : Type} [LinearOrder α] (a b : α) :
    lcmp a b = .lt ↔ a < b := by
  unfold lcmp
  rcases lt_trichotomy a b with h | h | h
  · simp [h]
  · simp [h, lt_irrefl]
  · simp [h, h.asymm, h.ne']

theorem Ordering.then_eq_eq {o p : Ordering} :
    o.then p = .eq ↔ o = .eq ∧ p = .eq := by
  cases o <;> simp [Ordering.then]

theorem Ordering.then_swap (o p : Ordering) :
    (o.then p).swap = o.swap.then p.swap := by
  cases o <;> rfl

theorem Ordering.then_eq_lt {o p : Ordering} :
    o.then p = .lt ↔ o = .lt ∨ (o = .eq ∧ p = .lt) := by
  cases o <;> simp [Ordering.then]

/-! ## Characters and strings

Rust compares `String` names lexicographically; Lean's built-in `String`
order does not reduce in the kernel, so the model compares the underlying
character lists. -/

def cmpChars : List Char → List Char → Ordering
  | [], [] => .eq
  | [], _ :: _ => .lt
  | _ :: _, [] => .gt
  | a :: as, b :: bs => (lcmp a b).then (cmpChars as bs)

theorem cmpChars_eq_iff : ∀ a b : List Char, cmpChars a b = .eq ↔ a = b
  | [], [] => by simp [cmpChars]
  | [], _ :: _ => by simp [cmpChars]
  | _ :: _, [] => by simp [cmpChars]
  | a :: as, b :: bs => by
    simp [cmpChars, Ordering.then_eq_eq, lcmp_eq_iff, cmpChars_eq_iff as bs]

theorem cmpChars_swap : ∀ a b : List Char, (cmpChars a b).swap = cmpChars b a
  | [], [] => rfl
  | [], _ :: _ => rfl
  | _ :: _, [] => rfl
  | a :: as, b :: bs => by
    simp [cmpChars, Ordering.then_swap, lcmp_swap, cmpChars_swap as bs]

theorem cmpChars_lt_trans : ∀ {a b c : List Char},
    cmpChars a b = .lt → cmpChars b c = .lt → cmpChars a c = .lt
  | [], [], _ :: _, _, _ => rfl
  | [], _ :: _, _ :: _, _, _ => rfl
  | a :: as, b :: bs, c :: cs, h₁, h₂ => by
    simp only [cmpChars, Ordering.then_eq_lt] at h₁ h₂ ⊢
    rcases h₁ with h₁ | ⟨h₁e, h₁r⟩
    · rcases h₂ with h₂ | ⟨h₂e, h₂r⟩
      · exact Or.inl (lcmp_lt_trans h₁ h₂)
      · rw [lcmp_eq_iff] at h₂e
        subst h₂e
        exact Or.inl h₁
    · rw [lcmp_eq_iff] at h₁e
      subst h₁e
      rcases h₂ with h₂ | ⟨h₂e, h₂r⟩
      · exact Or.inl h₂
      · exact Or.inr ⟨h₂e, cmpChars_lt_trans h₁r h₂r⟩

/-- Comparison of Rust `String` names through their character data. -/
def strCmp (a b : String) : Ordering := cmpChars a.data b.data

theorem strCmp_eq_iff (a b : String) : strCmp a b = .eq ↔ a = b := by
  unfold strCmp
  rw [cmpChars_eq_iff]
  constructor
  · intro h
    cases a
    cases b
    exact congrArg String.mk h
  · intro h
    rw [h]

theorem strCmp_swap (a b : String) : (strCmp a b).swap = strCmp b a :=
  cmpChars_swap a.data b.data

theorem strCmp_lt_trans {a b c : String}
    (h₁ : strCmp a b = .lt) (h₂ : strCmp b c = .lt) : strCmp a c = .lt :=
  cmpChars_lt_trans h₁ h₂

/-! ## Function tags

The elementary-function catalog (`Func`) lives outside the given sources and is
treated by the spec as an opaque tag set; the four tags the builder seeds are
`Sin`, `Cos`, `Exp`, `Log` (`Func::Transient`). Modelled from the spec. -/

inductive Func : Type where
  | sin | cos | exp | log
deriving DecidableEq

def Func.idx : Func → Nat
  | .sin => 0
  | .cos => 1
  | .exp => 2
  | .log => 3

def Func.cmp (f g : Func) : Ordering := lcmp f.idx g.idx

theorem Func.fcmp_eq_iff (f g : Func) : Func.cmp f g = .eq ↔ f = g := by
  cases f <;> cases g <;> simp [Func.cmp, lcmp] <;> decide

theorem Func.fcmp_swap (f g : Func) : (Func.cmp f g).swap = Func.cmp g f := by
  cases f <;> cases g <;> decide

theorem Func.fcmp_lt_trans {f g h : Func}
    (h₁ : Func.cmp f g = .lt) (h₂ : Func.cmp g h = .lt) : Func.cmp f h = .lt :=
  lcmp_lt_trans h₁ h₂

/-! ## Nodes

The builder's node shape (`src/core/src/builder.rs` matches on `Node::Var`,
`Node::Func`, `Node::Poly`, `Node::Tuple`); a polynomial is a finite map from
monomial bases (lists of handle × integer-exponent pairs) to rational
coefficients, embedded canonically as a key-sorted association list. -/

inductive Node : Type where
  | var : String → Node
  | func : Func → Node → Node
  | poly : List (List (Node × Int) × ℚ) → Node
  | tuple : List Node → Node

/-- A monomial base: the sorted list of (base node, integer exponent) pairs
(`pub type Base = Vec<(NodeRc, i64)>`). -/
abbrev Base : Type := List (Node × Int)

/-- The polynomial coefficient map (`Poly { elements: HashMap<Base, Rational> }`),
embedded as its canonical key-sorted association list. -/
abbrev PolyRep : Type := List (Base × ℚ)

mutual

/-- Total structural order on nodes, used where Rust sorts by the derived
`Ord` on nodes/handles (the spec fixes no particular order: "sorted by a total
order over NodeHandle (arbitrary but consistent)"). -/
def Node.cmp : Node → Node → Ordering
  | .var a, .var b => strCmp a b
  | .var _, .func _ _ => .lt
  | .var _, .poly _ => .lt
  | .var _, .tuple _ => .lt
  | .func _ _, .var _ => .gt
  | .func f a, .func g b => (Func.cmp f g).then (Node.cmp a b)
  | .func _ _, .poly _ => .lt
  | .func _ _, .tuple _ => .lt
  | .poly _, .var _ => .gt
  | .poly _, .func _ _ => .gt
  | .poly p, .poly q => cmpPoly p q
  | .poly _, .tuple _ => .lt
  | .tuple _, .var _ => .gt
  | .tuple _, .func _ _ => .gt
  | .tuple _, .poly _ => .gt
  | .tuple s, .tuple t => cmpNodes s t
termination_by structural a => a

def cmpNodes : List Node → List Node → Ordering
  | [], [] => .eq
  | [], _ :: _ => .lt
  | _ :: _, [] => .gt
  | a :: as, b :: bs => (Node.cmp a b).then (cmpNodes as bs)
termination_by structural a => a

def cmpEntry : Node × Int → Node × Int → Ordering
  | (v, m), (w, n) => (Node.cmp v w).then (lcmp m n)
termination_by structural a => a

def cmpBase : Base → Base → Ordering
  | [], [] => .eq
  | [], _ :: _ => .lt
  | _ :: _, [] => .gt
  | a :: as, b :: bs => (cmpEntry a b).then (cmpBase as bs)
termination_by structural a => a

def cmpPolyEntry : Base × ℚ → Base × ℚ → Ordering
  | (b1, c1), (b2, c2) => (cmpBase b1 b2).then (lcmp c1 c2)
termination_by structural a => a

def cmpPoly : PolyRep → PolyRep → Ordering
  | [], [] => .eq
  | [], _ :: _ => .lt
  | _ :: _, [] => .gt
  | a :: as, b :: bs => (cmpPolyEntry a b).then (cmpPoly as bs)
termination_by structural a => a

end

/-! ### Lawfulness of the structural order -/

mutual

theorem Node.cmp_refl : ∀ a : Node, Node.cmp a a = .eq
  | .var s => by simp [Node.cmp, strCmp_eq_iff]
  | .func f a => by
      simp [Node.cmp, Ordering.then_eq_eq, Func.fcmp_eq_iff, Node.cmp_refl a]
  | .poly p => by simpa [Node.cmp] using cmpPoly_refl p
  | .tuple t => by simpa [Node.cmp] using cmpNodes_refl t

theorem cmpNodes_refl : ∀ l : List Node, cmpNodes l l = .eq
  | [] => rfl
  | a :: as => by
      simp [cmpNodes, Ordering.then_eq_eq, Node.cmp_refl a, cmpNodes_refl as]

theorem cmpEntry_refl : ∀ e : Node × Int, cmpEntry e e = .eq
  | (v, m) => by simp [cmpEntry, Ordering.then_eq_eq, Node.cmp_refl v, lcmp_refl]

theorem cmpBase_refl : ∀ b : Base, cmpBase b b = .eq
  | [] => rfl
  | e :: t => by
      simp [cmpBase, Ordering.then_eq_eq, cmpEntry_refl e, cmpBase_refl t]

theorem cmpPolyEntry_refl : ∀ e : Base × ℚ, cmpPolyEntry e e = .eq
  | (b, c) => by simp [cmpPolyEntry, Ordering.then_eq_eq, cmpBase_refl b, lcmp_refl]

theorem cmpPoly_refl : ∀ p : PolyRep, cmpPoly p p = .eq
  | [] => rfl
  | e :: t => by
      simp [cmpPoly, Ordering.then_eq_eq, cmpPolyEntry_refl e, cmpPoly_refl t]

end

mutual

theorem Node.cmp_eq : ∀ a b : Node, Node.cmp a b = .eq → a = b
  | .var a, .var b => by simp [Node.cmp, strCmp_eq_iff]
  | .var _, .func _ _ => by simp [Node.cmp]
  | .var _, .poly _ => by simp [Node.cmp]
  | .var _, .tuple _ => by simp [Node.cmp]
  | .func _ _, .var _ => by simp [Node.cmp]
  | .func f a, .func g b => by
      intro h
      simp only [Node.cmp] at h
      rcases Ordering.then_eq_eq.1 h with ⟨h₁, h₂⟩
      rw [Func.fcmp_eq_iff] at h₁
      rw [h₁, Node.cmp_eq a b h₂]
  | .func _ _, .poly _ => by simp [Node.cmp]
  | .func _ _, .tuple _ => by simp [Node.cmp]
  | .poly _, .var _ => by simp [Node.cmp]
  | .poly _, .func _ _ => by simp [Node.cmp]
  | .poly p, .poly q => by
      intro h
      simp only [Node.cmp] at h
      rw [cmpPoly_eq p q h]
  | .poly _, .tuple _ => by simp [Node.cmp]
  | .tuple _, .var _ => by simp [Node.cmp]
  | .tuple _, .func _ _ => by simp [Node.cmp]
  | .tuple _, .poly _ => by simp [Node.cmp]
  | .tuple s, .tuple t => by
      intro h
      simp only [Node.cmp] at h
      rw [cmpNodes_eq s t h]

theorem cmpNodes_eq : ∀ l m : List Node, cmpNodes l m = .eq → l = m
  | [], [] => by simp
  | [], _ :: _ => by simp [cmpNodes]
  | _ :: _, [] => by simp [cmpNodes]
  | a :: as, b :: bs => by
      intro h
      simp only [cmpNodes] at h
      rcases Ordering.then_eq_eq.1 h with ⟨h₁, h₂⟩
      rw [Node.cmp_eq a b h₁, cmpNodes_eq as bs h₂]

theorem cmpEntry_eq : ∀ e₁ e₂ : Node × Int, cmpEntry e₁ e₂ = .eq → e₁ = e₂
  | (v, m), (w, n) => by
      intro h
      simp only [cmpEntry] at h
      rcases Ordering.then_eq_eq.1 h with ⟨h₁, h₂⟩
      rw [lcmp_eq_iff] at h₂
      rw [Node.cmp_eq v w h₁, h₂]

theorem cmpBase_eq : ∀ b₁ b₂ : Base, cmpBase b₁ b₂ = .eq → b₁ = b₂
  | [], [] => by simp
  | [], _ :: _ => by simp [cmpBase]
  | _ :: _, [] => by simp [cmpBase]
  | e :: t, e' :: t' => by
      intro h
      simp only [cmpBase] at h
      rcases Ordering.then_eq_eq.1 h with ⟨h₁, h₂⟩
      rw [cmpEntry_eq e e' h₁, cmpBase_eq t t' h₂]

theorem cmpPolyEntry_eq : ∀ e₁ e₂ : Base × ℚ, cmpPolyEntry e₁ e₂ = .eq → e₁ = e₂
  | (b, c), (b', c') => by
      intro h
      simp only [cmpPolyEntry] at h
      rcases Ordering.then_eq_eq.1 h with ⟨h₁, h₂⟩
      rw [lcmp_eq_iff] at h₂
      rw [cmpBase_eq b b' h₁, h₂]

theorem cmpPoly_eq : ∀ p q : PolyRep, cmpPoly p q = .eq → p = q
  | [], [] => by simp
  | [], _ :: _ => by simp [cmpPoly]
  | _ :: _, [] => by simp [cmpPoly]
  | e :: t, e' :: t' => by
      intro h
      simp only [cmpPoly] at h
      rcases Ordering.then_eq_eq.1 h with ⟨h₁, h₂⟩
      rw [cmpPolyEntry_eq e e' h₁, cmpPoly_eq t t' h₂]

end

mutual

theorem Node.cmp_swap : ∀ a b : Node, (Node.cmp a b).swap = Node.cmp b a
  | .var a, .var b => by simp [Node.cmp, strCmp_swap]
  | .var _, .func _ _ => by simp [Node.cmp, Ordering.swap]
  | .var _, .poly _ => by simp [Node.cmp, Ordering.swap]
  | .var _, .tuple _ => by simp [Node.cmp, Ordering.swap]
  | .func _ _, .var _ => by simp [Node.cmp, Ordering.swap]
  | .func f a, .func g b => by
      simp only [Node.cmp, Ordering.then_swap]
      rw [Func.fcmp_swap, Node.cmp_swap a b]
  | .func _ _, .poly _ => by simp [Node.cmp, Ordering.swap]
  | .func _ _, .tuple _ => by simp [Node.cmp, Ordering.swap]
  | .poly _, .var _ => by simp [Node.cmp, Ordering.swap]
  | .poly _, .func _ _ => by simp [Node.cmp, Ordering.swap]
  | .poly p, .poly q => by
      simp only [Node.cmp]
      exact cmpPoly_swap p q
  | .poly _, .tuple _ => by simp [Node.cmp, Ordering.swap]
  | .tuple _, .var _ => by simp [Node.cmp, Ordering.swap]
  | .tuple _, .func _ _ => by simp [Node.cmp, Ordering.swap]
  | .tuple _, .poly _ => by simp [Node.cmp, Ordering.swap]
  | .tuple s, .tuple t => by
      simp only [Node.cmp]
      exact cmpNodes_swap s t

theorem cmpNodes_swap : ∀ l m : List Node, (cmpNodes l m).swap = cmpNodes m l
  | [], [] => rfl
  | [], _ :: _ => rfl
  | _ :: _, [] => rfl
  | a :: as, b :: bs => by
      simp only [cmpNodes, Ordering.then_swap]
      rw [Node.cmp_swap a b, cmpNodes_swap as bs]

theorem cmpEntry_swap : ∀ e₁ e₂ : Node × Int, (cmpEntry e₁ e₂).swap = cmpEntry e₂ e₁
  | (v, m), (w, n) => by
      simp only [cmpEntry, Ordering.then_swap]
      rw [Node.cmp_swap v w, lcmp_swap]

theorem cmpBase_swap : ∀ b₁ b₂ : Base, (cmpBase b₁ b₂).swap = cmpBase b₂ b₁
  | [], [] => rfl
  | [], _ :: _ => rfl
  | _ :: _, [] => rfl
  | e :: t, e' :: t' => by
      simp only [cmpBase, Ordering.then_swap]
      rw [cmpEntry_swap e e', cmpBase_swap t t']

theorem cmpPolyEntry_swap : ∀ e₁ e₂ : Base × ℚ, (cmpPolyEntry e₁ e₂).swap = cmpPolyEntry e₂ e₁
  | (b, c), (b', c') => by
      simp only [cmpPolyEntry, Ordering.then_swap]
      rw [cmpBase_swap b b', lcmp_swap]

theorem cmpPoly_swap : ∀ p q : PolyRep, (cmpPoly p q).swap = cmpPoly q p
  | [], [] => rfl
  | [], _ :: _ => rfl
  | _ :: _, [] => rfl
  | e :: t, e' :: t' => by
      simp only [cmpPoly, Ordering.then_swap]
      rw [cmpPolyEntry_swap e e', cmpPoly_swap t t']

end

/-- Lexicographic transitivity step for comparators combined with `Ordering.then`. -/
theorem lex_then_trans {α β : Type} {f : α → α → Ordering} {g : β → β → Ordering}
    {a b c : α} {x y z : β}
    (f_eq_ab : f a b = .eq → a = b) (f_eq_bc : f b c = .eq → b = c)
    (f_tr : f a b = .lt → f b c = .lt → f a c = .lt)
    (g_tr : g x y = .lt → g y z = .lt → g x z = .lt)
    (h₁ : (f a b).then (g x y) = .lt) (h₂ : (f b c).then (g y z) = .lt) :
    (f a c).then (g x z) = .lt := by
  rcases Ordering.then_eq_lt.1 h₁ with h | ⟨he, hg⟩
  · rcases Ordering.then_eq_lt.1 h₂ with h' | ⟨he', hg'⟩
    · exact Ordering.then_eq_lt.2 (Or.inl (f_tr h h'))
    · cases f_eq_bc he'
      exact Ordering.then_eq_lt.2 (Or.inl h)
  · cases f_eq_ab he
    rcases Ordering.then_eq_lt.1 h₂ with h' | ⟨he', hg'⟩
    · exact Ordering.then_eq_lt.2 (Or.inl h')
    · exact Ordering.then_eq_lt.2 (Or.inr ⟨he', g_tr hg hg'⟩)

mutual

theorem Node.cmp_lt_trans :
    ∀ a b c : Node, Node.cmp a b = .lt → Node.cmp b c = .lt → Node.cmp a c = .lt
  | .var a, .var b, .var c => by
      simp only [Node.cmp]
      exact strCmp_lt_trans
  | .var _, .var _, .func _ _ => by simp [Node.cmp]
  | .var _, .var _, .poly _ => by simp [Node.cmp]
  | .var _, .var _, .tuple _ => by simp [Node.cmp]
  | .var _, .func _ _, .var _ => by simp [Node.cmp]
  | .var _, .func _ _, .func _ _ => by simp [Node.cmp]
  | .var _, .func _ _, .poly _ => by simp [Node.cmp]
  | .var _, .func _ _, .tuple _ => by simp [Node.cmp]
  | .var _, .poly _, .var _ => by simp [Node.cmp]
  | .var _, .poly _, .func _ _ => by simp [Node.cmp]
  | .var _, .poly _, .poly _ => by simp [Node.cmp]
  | .var _, .poly _, .tuple _ => by simp [Node.cmp]
  | .var _, .tuple _, .var _ => by simp [Node.cmp]
  | .var _, .tuple _, .func _ _ => by simp [Node.cmp]
  | .var _, .tuple _, .poly _ => by simp [Node.cmp]
  | .var _, .tuple _, .tuple _ => by simp [Node.cmp]
  | .func _ _, .var _, _ => by simp [Node.cmp]
  | .func f a, .func g b, .func h c => by
      simp only [Node.cmp]
      exact lex_then_trans
        (fun hh => by rw [(Func.fcmp_eq_iff f g).1 hh])
        (fun hh => by rw [(Func.fcmp_eq_iff g h).1 hh])
        Func.fcmp_lt_trans (Node.cmp_lt_trans a b c)
  | .func _ _, .func _ _, .var _ => by simp [Node.cmp]
  | .func _ _, .func _ _, .poly _ => by simp [Node.cmp]
  | .func _ _, .func _ _, .tuple _ => by simp [Node.cmp]
  | .func _ _, .poly _, .var _ => by simp [Node.cmp]
  | .func _ _, .poly _, .func _ _ => by simp [Node.cmp]
  | .func _ _, .poly _, .poly _ => by simp [Node.cmp]
  | .func _ _, .poly _, .tuple _ => by simp [Node.cmp]
  | .func _ _, .tuple _, .var _ => by simp [Node.cmp]
  | .func _ _, .tuple _, .func _ _ => by simp [Node.cmp]
  | .func _ _, .tuple _, .poly _ => by simp [Node.cmp]
  | .func _ _, .tuple _, .tuple _ => by simp [Node.cmp]
  | .poly _, .var _, _ => by simp [Node.cmp]
  | .poly _, .func _ _, _ => by simp [Node.cmp]
  | .poly p, .poly q, .poly r => by
      simp only [Node.cmp]
      exact cmpPoly_lt_trans p q r
  | .poly _, .poly _, .var _ => by simp [Node.cmp]
  | .poly _, .poly _, .func _ _ => by simp [Node.cmp]
  | .poly _, .poly _, .tuple _ => by simp [Node.cmp]
  | .poly _, .tuple _, .var _ => by simp [Node.cmp]
  | .poly _, .tuple _, .func _ _ => by simp [Node.cmp]
  | .poly _, .tuple _, .poly _ => by simp [Node.cmp]
  | .poly _, .tuple _, .tuple _ => by simp [Node.cmp]
  | .tuple _, .var _, _ => by simp [Node.cmp]
  | .tuple _, .func _ _, _ => by simp [Node.cmp]
  | .tuple _, .poly _, _ => by simp [Node.cmp]
  | .tuple s, .tuple t, .tuple u => by
      simp only [Node.cmp]
      exact cmpNodes_lt_trans s t u
  | .tuple _, .tuple _, .var _ => by simp [Node.cmp]
  | .tuple _, .tuple _, .func _ _ => by simp [Node.cmp]
  | .tuple _, .tuple _, .poly _ => by simp [Node.cmp]

theorem cmpNodes_lt_trans :
    ∀ l m k : List Node, cmpNodes l m = .lt → cmpNodes m k = .lt → cmpNodes l k = .lt
  | [], [], [] => by simp [cmpNodes]
  | [], [], _ :: _ => by simp [cmpNodes]
  | [], _ :: _, [] => by simp [cmpNodes]
  | [], _ :: _, _ :: _ => by simp [cmpNodes]
  | _ :: _, [], _ => by simp [cmpNodes]
  | _ :: _, _ :: _, [] => by simp [cmpNodes]
  | a :: as, b :: bs, c :: cs => by
      simp only [cmpNodes]
      exact lex_then_trans (Node.cmp_eq a b) (Node.cmp_eq b c)
        (Node.cmp_lt_trans a b c) (cmpNodes_lt_trans as bs cs)

theorem cmpEntry_lt_trans :
    ∀ e₁ e₂ e₃ : Node × Int, cmpEntry e₁ e₂ = .lt → cmpEntry e₂ e₃ = .lt → cmpEntry e₁ e₃ = .lt
  | (v, m), (w, n), (x, k) => by
      simp only [cmpEntry]
      exact lex_then_trans (Node.cmp_eq v w) (Node.cmp_eq w x)
        (Node.cmp_lt_trans v w x) lcmp_lt_trans

theorem cmpBase_lt_trans :
    ∀ b₁ b₂ b₃ : Base, cmpBase b₁ b₂ = .lt → cmpBase b₂ b₃ = .lt → cmpBase b₁ b₃ = .lt
  | [], [], [] => by simp [cmpBase]
  | [], [], _ :: _ => by simp [cmpBase]
  | [], _ :: _, [] => by simp [cmpBase]
  | [], _ :: _, _ :: _ => by simp [cmpBase]
  | _ :: _, [], _ => by simp [cmpBase]
  | _ :: _, _ :: _, [] => by simp [cmpBase]
  | e :: t, e' :: t', e'' :: t'' => by
      simp only [cmpBase]
      exact lex_then_trans (cmpEntry_eq e e') (cmpEntry_eq e' e'')
        (cmpEntry_lt_trans e e' e'') (cmpBase_lt_trans t t' t'')

theorem cmpPolyEntry_lt_trans :
    ∀ e₁ e₂ e₃ : Base × ℚ,
      cmpPolyEntry e₁ e₂ = .lt → cmpPolyEntry e₂ e₃ = .lt → cmpPolyEntry e₁ e₃ = .lt
  | (b, c), (b', c'), (b'', c'') => by
      simp only [cmpPolyEntry]
      exact lex_then_trans (cmpBase_eq b b') (cmpBase_eq b' b'')
        (cmpBase_lt_trans b b' b'') lcmp_lt_trans

theorem cmpPoly_lt_trans :
    ∀ p q r : PolyRep, cmpPoly p q = .lt → cmpPoly q r = .lt → cmpPoly p r = .lt
  | [], [], [] => by simp [cmpPoly]
  | [], [], _ :: _ => by simp [cmpPoly]
  | [], _ :: _, [] => by simp [cmpPoly]
  | [], _ :: _, _ :: _ => by simp [cmpPoly]
  | _ :: _, [], _ => by simp [cmpPoly]
  | _ :: _, _ :: _, [] => by simp [cmpPoly]
  | e :: t, e' :: t', e'' :: t'' => by
      simp only [cmpPoly]
      exact lex_then_trans (cmpPolyEntry_eq e e') (cmpPolyEntry_eq e' e'')
        (cmpPolyEntry_lt_trans e e' e'') (cmpPoly_lt_trans t t' t'')

end

theorem Node.cmp_eq_iff (a b : Node) : Node.cmp a b = .eq ↔ a = b :=
  ⟨Node.cmp_eq a b, fun h => h ▸ Node.cmp_refl a⟩

instance : DecidableEq Node := fun a b =>
  decidable_of_iff (Node.cmp a b = .eq) (Node.cmp_eq_iff a b)

/-! ## The interning store (`src/src/node.rs`) -/

/-- Model of `NodeRc`: the shared `Rc<(Node, u64)>` — an interned node together
with its cached structural hash. -/
structure NodeRc where
  node : Node
  hash : Nat
deriving DecidableEq

/-- Model of `impl PartialEq for NodeRc`: equality compares only the two cached
hashes (`self.inner.1 == rhs.inner.1`) — an O(1) comparison of precomputed
structural hashes that never re-walks either tree. -/
def NodeRc.eq (a b : NodeRc) : Bool := a.hash == b.hash

/-- Model of `Cache { items: HashMap<u64, Weak<(Node, u64)>> }`, restricted to
executions in which every handed-out handle stays alive, so that every
`Weak::upgrade` succeeds. The structural hash function is a parameter of the
operations; the model does not fix Rust's `DefaultHasher`. -/
structure Cache where
  items : List (Nat × Node)
deriving DecidableEq

def Cache.new : Cache := ⟨[]⟩

def Cache.find (c : Cache) (h : Nat) : Option Node :=
  (c.items.find? (fun e => e.1 == h)).map (fun e => e.2)

/-- Model of `Cache::intern`. On a hash hit the stored node is asserted to be
structurally equal to the incoming one (`assert_eq!(rc.0, node)`) and the
existing handle is returned; an assertion failure is a Rust panic, modelled as
`none`. On a miss a fresh handle is registered under the node's hash. -/
def Cache.intern (hf : Node → Nat) (c : Cache) (node : Node) : Option (NodeRc × Cache) :=
  match Cache.find c (hf node) with
  | some stored => if stored = node then some (⟨stored, hf node⟩, c) else none
  | none => some (⟨node, hf node⟩, ⟨(hf node, node) :: c.items⟩)

theorem Cache.intern_shape {hf : Node → Nat} {c c' : Cache} {m : Node} {r : NodeRc}
    (hm : Cache.intern hf c m = some (r, c')) :
    r = ⟨m, hf m⟩ ∧ Cache.find c' (hf m) = some m := by
  unfold Cache.intern at hm
  cases hfind : Cache.find c (hf m) with
  | some stored =>
    rw [hfind] at hm
    simp only [] at hm
    split at hm
    · rename_i hs
      subst hs
      rw [Option.some.injEq, Prod.mk.injEq] at hm
      exact ⟨hm.1.symm, hm.2 ▸ hfind⟩
    · exact absurd hm (by simp)
  | none =>
    rw [hfind] at hm
    simp only [] at hm
    rw [Option.some.injEq, Prod.mk.injEq] at hm
    refine ⟨hm.1.symm, ?_⟩
    rw [← hm.2]
    simp [Cache.find]

/-- Claim C1 (main part): for two nodes interned in sequence in the same store
(in either order, since `m`, `n` are arbitrary), whenever both `intern` calls
return (no assertion panic), the returned handles compare equal — an O(1)
comparison of the precomputed hashes by definition of `NodeRc.eq` — iff the two
nodes are structurally equal; moreover each handle carries exactly its node and
that node's precomputed structural hash. -/
theorem Cache.intern_handle_eq_iff
    (hf : Node → Nat) (c c₁ c₂ : Cache) (m n : Node) (rm rn : NodeRc)
    (hm : Cache.intern hf c m = some (rm, c₁))
    (hn : Cache.intern hf c₁ n = some (rn, c₂)) :
    (NodeRc.eq rm rn = true ↔ m = n) ∧
      rm.node = m ∧ rn.node = n ∧ rm.hash = hf m ∧ rn.hash = hf n := by
  obtain ⟨hrm, hfind₁⟩ := Cache.intern_shape hm
  obtain ⟨hrn, -⟩ := Cache.intern_shape hn
  subst hrm
  subst hrn
  refine ⟨⟨?_, ?_⟩, rfl, rfl, rfl, rfl⟩
  · intro he
    have hh : hf m = hf n := by simpa [NodeRc.eq, beq_iff_eq] using he
    unfold Cache.intern at hn
    rw [← hh, hfind₁] at hn
    simp only [] at hn
    split at hn
    · rename_i hs
      exact hs
    · exact absurd hn (by simp)
  · rintro rfl
    simp [NodeRc.eq]

/-- Witness for C1: a concrete run of the model — interning `x` twice in a
fresh store returns handles that compare equal, as the nodes are equal. -/
theorem Cache.intern_handle_eq_iff_witness :
    (Cache.intern (fun _ => 0) Cache.new (.var "x") =
      some (⟨.var "x", 0⟩, ⟨[(0, .var "x")]⟩)) ∧
    (Cache.intern (fun _ => 0) ⟨[(0, Node.var "x")]⟩ (.var "x") =
      some (⟨.var "x", 0⟩, ⟨[(0, .var "x")]⟩)) ∧
    (NodeRc.eq ⟨.var "x", 0⟩ ⟨.var "x", 0⟩ = true ↔ (Node.var "x") = (.var "x")) :=
  ⟨by decide, by decide,
    (Cache.intern_handle_eq_iff (fun _ => 0) Cache.new ⟨[(0, .var "x")]⟩
      ⟨[(0, .var "x")]⟩ (.var "x") (.var "x") ⟨.var "x", 0⟩ ⟨.var "x", 0⟩
      (by decide) (by decide)).1⟩

/-! ## Association-list maps sorted by a lawful comparator

Rust's `HashMap` compares maps extensionally, so the embedding keeps every map
as an association list strictly sorted by key; two Rust-equal maps then have
identical representations. -/

/-- Kernel-computable strict-chain check (Mathlib's `Chain'` decidability
instance is tactic-defined and does not reduce in the kernel). -/
def chainLtB {α : Type} (R : α → α → Bool) : List α → Bool
  | [] => true
  | [_] => true
  | x :: y :: t => R x y && chainLtB R (y :: t)

theorem chainLtB_iff {α : Type} (R : α → α → Bool) :
    ∀ l : List α, chainLtB R l = true ↔ l.Chain' (fun a b => R a b = true)
  | [] => by simp [chainLtB]
  | [x] => by simp [chainLtB]
  | x :: y :: t => by
    rw [List.chain'_cons]
    simp [chainLtB, chainLtB_iff R (y :: t)]

section KeyMap

variable {κ ν : Type} [DecidableEq κ]

/-- First-match association-list lookup (models `HashMap::get`). -/
def lookupK : List (κ × ν) → κ → Option ν
  | [], _ => none
  | e :: t, k => if e.1 = k then some e.2 else lookupK t k

/-- No key occurs twice. -/
def NodupKeys (l : List (κ × ν)) : Prop := (l.map Prod.fst).Nodup

variable (c : κ → κ → Ordering)

/-- The canonical-map invariant: entries strictly sorted by key. -/
def KeySorted (l : List (κ × ν)) : Prop :=
  l.Chain' (fun x y => c x.1 y.1 = .lt)

instance (l : List (κ × ν)) : Decidable (KeySorted c l) :=
  decidable_of_iff (chainLtB (fun x y => decide (c x.1 y.1 = Ordering.lt)) l = true) (by
    rw [chainLtB_iff]
    constructor
    · exact fun h => h.imp (fun a b hab => of_decide_eq_true hab)
    · exact fun h => h.imp (fun a b hab => decide_eq_true hab))

theorem lookupK_eq_none_iff (l : List (κ × ν)) (k : κ) :
    lookupK l k = none ↔ ∀ e ∈ l, e.1 ≠ k := by
  induction l with
  | nil => simp [lookupK]
  | cons e t ih =>
    by_cases h : e.1 = k
    · simp [lookupK, h]
    · simp [lookupK, h, ih]

theorem lookupK_mem {l : List (κ × ν)} {k : κ} {v : ν}
    (h : lookupK l k = some v) : (k, v) ∈ l := by
  induction l with
  | nil => simp [lookupK] at h
  | cons e t ih =>
    by_cases he : e.1 = k
    · simp only [lookupK, he, if_pos] at h
      obtain ⟨k', v'⟩ := e
      cases he
      cases h
      exact List.mem_cons_self _ _
    · simp only [lookupK, he, if_neg, not_false_iff] at h
      exact List.mem_cons_of_mem _ (ih h)

theorem lookupK_eq_some_of_mem {l : List (κ × ν)} {k : κ} {v : ν}
    (hnd : NodupKeys l) (h : (k, v) ∈ l) : lookupK l k = some v := by
  induction l with
  | nil => simp at h
  | cons e t ih =>
    rw [List.mem_cons] at h
    rcases h with h | h
    · cases h.symm
      simp [lookupK]
    · have hk : e.1 ≠ k := by
        intro he
        have : k ∈ t.map Prod.fst := List.mem_map_of_mem Prod.fst h
        rw [NodupKeys, List.map_cons, List.nodup_cons] at hnd
        exact hnd.1 (he ▸ this)
      rw [NodupKeys, List.map_cons, List.nodup_cons] at hnd
      simp only [lookupK, hk, if_neg, not_false_iff]
      exact ih hnd.2 h

theorem Perm.lookupK_eq {l l' : List (κ × ν)} (hp : l.Perm l')
    (hnd : NodupKeys l) (k : κ) : lookupK l k = lookupK l' k := by
  have hnd' : NodupKeys l' := (hp.map Prod.fst).nodup_iff.1 hnd
  cases hv : lookupK l k with
  | some v =>
    exact (lookupK_eq_some_of_mem hnd' (hp.mem_iff.1 (lookupK_mem hv))).symm
  | none =>
    rw [lookupK_eq_none_iff] at hv
    symm
    rw [lookupK_eq_none_iff]
    intro e he
    exact hv e (hp.mem_iff.2 he)

theorem keySorted_pairwise
    (c_trans : ∀ a b d : κ, c a b = .lt → c b d = .lt → c a d = .lt)
    {l : List (κ × ν)} (hs : KeySorted c l) :
    l.Pairwise (fun x y => c x.1 y.1 = .lt) := by
  letI : IsTrans (κ × ν) (fun x y => c x.1 y.1 = .lt) :=
    ⟨fun a b d hab hbd => c_trans _ _ _ hab hbd⟩
  rw [KeySorted, List.chain'_iff_pairwise] at hs
  exact hs

theorem lookupK_eq_none_of_lt_all
    (c_eq : ∀ a b : κ, c a b = .eq ↔ a = b)
    {l : List (κ × ν)} {k : κ}
    (hk : ∀ e ∈ l, c k e.1 = .lt) :
    lookupK l k = none := by
  rw [lookupK_eq_none_iff]
  intro e he hek
  have h₁ := hk e he
  rw [hek] at h₁
  have h₂ : c k k = .eq := (c_eq k k).2 rfl
  rw [h₂] at h₁
  exact absurd h₁ (by simp)

theorem keySorted_nodupKeys
    (c_eq : ∀ a b : κ, c a b = .eq ↔ a = b)
    (c_trans : ∀ a b d : κ, c a b = .lt → c b d = .lt → c a d = .lt)
    {l : List (κ × ν)} (hs : KeySorted c l) :
    NodupKeys l := by
  have hp := keySorted_pairwise c c_trans hs
  have : (l.map Prod.fst).Pairwise (· ≠ ·) := by
    rw [List.pairwise_map]
    refine hp.imp ?_
    intro a b hab heq
    rw [heq] at hab
    have h₂ : c b.1 b.1 = .eq := (c_eq b.1 b.1).2 rfl
    rw [h₂] at hab
    exact absurd hab (by simp)
  exact this

theorem keySorted_ext
    (c_eq : ∀ a b : κ, c a b = .eq ↔ a = b)
    (c_swap : ∀ a b : κ, (c a b).swap = c b a)
    (c_trans : ∀ a b d : κ, c a b = .lt → c b d = .lt → c a d = .lt) :
    ∀ {l₁ l₂ : List (κ × ν)},
    KeySorted c l₁ → KeySorted c l₂ →
    (∀ k, lookupK l₁ k = lookupK l₂ k) → l₁ = l₂ := by
  intro l₁
  induction l₁ with
  | nil =>
    intro l₂ _ _ h
    cases l₂ with
    | nil => rfl
    | cons e t =>
      have := h e.1
      simp [lookupK] at this
  | cons e t ih =>
    intro l₂ h₁ h₂ h
    cases l₂ with
    | nil =>
      have := h e.1
      simp [lookupK] at this
    | cons e' t' =>
      have hp₁ := keySorted_pairwise c c_trans h₁
      have hp₂ := keySorted_pairwise c c_trans h₂
      rw [List.pairwise_cons] at hp₁ hp₂
      rcases ho : c e.1 e'.1 with _ | _ | _
      · exfalso
        have hnone : lookupK (e' :: t') e.1 = none := by
          apply lookupK_eq_none_of_lt_all c c_eq
          intro x hx
          rcases List.mem_cons.1 hx with rfl | hx'
          · exact ho
          · exact c_trans _ _ _ ho (hp₂.1 x hx')
        have hsome := h e.1
        rw [hnone] at hsome
        simp [lookupK] at hsome
      · have hkey : e.1 = e'.1 := (c_eq _ _).1 ho
        have hL : lookupK (e :: t) e.1 = some e.2 := by
          simp [lookupK]
        have hR : lookupK (e' :: t') e.1 = some e'.2 := by
          simp only [lookupK]
          rw [if_pos hkey.symm]
        have hval : e.2 = e'.2 := by
          have hv := h e.1
          rw [hL, hR] at hv
          exact Option.some.inj hv
        have hee : e = e' := Prod.ext hkey hval
        subst hee
        have htail : ∀ k, lookupK t k = lookupK t' k := by
          intro k
          by_cases hk : e.1 = k
          · subst hk
            rw [lookupK_eq_none_of_lt_all c c_eq (fun x hx => hp₁.1 x hx),
              lookupK_eq_none_of_lt_all c c_eq (fun x hx => hp₂.1 x hx)]
          · have hv := h k
            simp only [lookupK, if_neg hk] at hv
            exact hv
        have ht : t = t' := ih h₁.tail h₂.tail htail
        rw [ht]
      · exfalso
        have ho' : c e'.1 e.1 = .lt := by
          have hsw := c_swap e.1 e'.1
          rw [ho] at hsw
          exact hsw.symm
        have hnone : lookupK (e :: t) e'.1 = none := by
          apply lookupK_eq_none_of_lt_all c c_eq
          intro x hx
          rcases List.mem_cons.1 hx with rfl | hx'
          · exact ho'
          · exact c_trans _ _ _ ho' (hp₁.1 x hx')
        have hsome := h e'.1
        rw [hnone] at hsome
        simp [lookupK] at hsome

end KeyMap

/-! ## The canonical polynomial (`src/src/poly.rs`) -/

inductive PolyError : Type where
  | divZero
deriving DecidableEq

/-- The (non-strict) order sorting monomial-base entries: Rust sorts the
`Vec<(NodeRc, i64)>` by the derived pair order — node first, then exponent
(`base.sort()` in `Poly::one`, `base.sort_by(...)` in `impl Mul`). -/
def entryLe (x y : Node × Int) : Prop := cmpEntry x y ≠ .gt

instance : DecidableRel entryLe := fun x y =>
  inferInstanceAs (Decidable (cmpEntry x y ≠ .gt))

instance : IsTotal (Node × Int) entryLe :=
  ⟨fun x y => by
    unfold entryLe
    rcases h : cmpEntry x y with _ | _ | _
    · exact Or.inl (by simp)
    · exact Or.inl (by simp)
    · refine Or.inr ?_
      have hs := cmpEntry_swap x y
      rw [h] at hs
      rw [← hs]
      decide⟩

instance : IsTrans (Node × Int) entryLe :=
  ⟨fun x y z hxy hyz => by
    unfold entryLe at *
    rcases hxy' : cmpEntry x y with _ | _ | _
    · rcases hyz' : cmpEntry y z with _ | _ | _
      · rw [cmpEntry_lt_trans x y z hxy' hyz']
        simp
      · rw [cmpEntry_eq y z hyz'] at hxy'
        rw [hxy']
        simp
      · exact absurd hyz' hyz
    · rw [cmpEntry_eq x y hxy']
      exact hyz
    · exact absurd hxy' hxy⟩

instance : IsAntisymm (Node × Int) entryLe :=
  ⟨fun x y hxy hyx => by
    unfold entryLe at *
    rcases h : cmpEntry x y with _ | _ | _
    · have hs := cmpEntry_swap x y
      rw [h] at hs
      exact absurd hs.symm hyx
    · exact cmpEntry_eq x y h
    · exact absurd h hxy⟩

/-- Sorting a monomial base (`Vec::sort` / `sort_by`, a stable sort by the pair
order). -/
def sortBase (b : Base) : Base := List.insertionSort entryLe b

def Poly.one (base : Base) (fac : ℚ) : PolyRep := [(sortBase base, fac)]

def Poly.zero : PolyRep := []

def Poly.rational (r : ℚ) : PolyRep := if r = 0 then Poly.zero else Poly.one [] r

def Poly.int (i : Int) : PolyRep := Poly.rational (i : ℚ)

def Poly.from_node (node : Node) : PolyRep :=
  match node with
  | .poly p => p
  | _ => Poly.one [(node, 1)] 1

/-- Model of `fn add_to`: `HashMap::entry` insertion — a vacant entry inserts
`r` as given (no zero check), an occupied one adds `r` and removes the entry
when the sum is zero. The insertion position maintains the canonical key
order of the map embedding. -/
def add_to : PolyRep → Base → ℚ → PolyRep
  | [], b, r => [(b, r)]
  | (k, v) :: t, b, r =>
    match cmpBase b k with
    | .lt => (b, r) :: (k, v) :: t
    | .eq => if v + r = 0 then t else (k, v + r) :: t
    | .gt => (k, v) :: add_to t b r

/-- Model of `impl Add for Poly`: fold the right-hand map's entries into the
left-hand map with `add_to`. -/
def polyAdd (p q : PolyRep) : PolyRep :=
  q.foldl (fun acc e => add_to acc e.1 e.2) p

/-- One step of the base-merge loop in `impl Mul for Poly`: locate the entry
with the same base node, add the exponents (removing the pair when they sum to
zero), otherwise push the new pair. (`swap_remove`'s reordering of the unsorted
intermediate is immaterial: the merged list is sorted immediately after.) -/
def insBase (v : Node) (n : Int) : Base → Base
  | [] => [(v, n)]
  | (w, m) :: t =>
    if w = v then (if m + n = 0 then t else (w, m + n) :: t)
    else (w, m) :: insBase v n t

def mulBase (a b : Base) : Base := b.foldl (fun acc e => insBase e.1 e.2 acc) a

/-- Model of `impl Mul for Poly`: over the cartesian product of the two
coefficient maps, accumulate the merged-and-sorted base with the product of the
coefficients. -/
def polyMul (p q : PolyRep) : PolyRep :=
  (p.map (fun ea =>
    q.map (fun eb => (sortBase (mulBase ea.1 eb.1), ea.2 * eb.2)))).flatten.foldl
    (fun acc e => add_to acc e.1 e.2) []

/-- Model of `impl MulAssign<Rational> for Poly`: scales every stored
coefficient in place — with no removal of zero results. -/
def Poly.mulRat (p : PolyRep) (k : ℚ) : PolyRep := p.map (fun e => (e.1, e.2 * k))

/-- Model of `impl Mul<i64> for Poly` via `MulAssign<i64>`. -/
def Poly.mulInt (p : PolyRep) (i : Int) : PolyRep := Poly.mulRat p (i : ℚ)

def Poly.is_zero (p : PolyRep) : Bool := p.length = 0

def Poly.as_rational (p : PolyRep) : Option ℚ :=
  match p with
  | [] => some 0
  | [(b, c)] => if b = [] then some c else none
  | _ => none

/-- Rust `Rational::as_int` (external exact-rational crate, out of scope per the
spec): an exact integer iff the reduced denominator is 1. -/
def ratAsInt (r : ℚ) : Option Int := if r.den = 1 then some r.num else none

def Poly.as_int (p : PolyRep) : Option Int := (Poly.as_rational p).bind ratAsInt

/-- The loop of `Poly::pow_n` (exponentiation by squaring), driven by a fuel
argument that strictly dominates the iteration count so the model is structural. -/
def pow_n_go : Nat → PolyRep → Nat → PolyRep → PolyRep
  | 0, s, n, acc => if n = 1 then polyMul acc s else acc
  | fuel + 1, s, n, acc =>
    if 1 < n then
      pow_n_go fuel (polyMul s s) (n / 2) (if n % 2 = 1 then polyMul acc s else acc)
    else if n = 1 then polyMul acc s else acc

def Poly.pow_n (p : PolyRep) (n : Nat) : PolyRep := pow_n_go n p n (Poly.int 1)

/-! ## The expression builder (`src/core/src/builder.rs`) -/

/-- Modelled from the spec: the error enum lives outside the given sources
(`prelude::Error`); its kinds are the spec's §7 table together with the
variants `builder.rs` constructs (`Error::IntegerError`,
`Error::ShapeMismatch(a, b)`, parse errors, and the `From<PolyError>`
conversion used by `?`). The extra `panicked` constructor models a Rust
panic — a crash, not one of the returned error kinds. -/
inductive Error : Type where
  | parseError (diagnostic source : String)
  | integerError
  | shapeMismatch (left right : Nat)
  | divZero
  | notImplemented
  | panicked (msg : String)
deriving DecidableEq

def Error.ofPoly : PolyError → Error
  | .divZero => Error.divZero

abbrev NodeResult : Type := Except Error Node

instance : DecidableEq NodeResult := fun a b =>
  match a, b with
  | .ok x, .ok y => decidable_of_iff (x = y) (by simp)
  | .ok _, .error _ => isFalse (by simp)
  | .error _, .ok _ => isFalse (by simp)
  | .error e, .error e' => decidable_of_iff (e = e') (by simp)

/-- A registered named definition: parameter names plus the body handle. -/
structure Definition where
  args : List String
  expr : Node

/-- The builder: the interning cache is implicit in the model (handles are
their structural node values, per the interning contract proved for C1); the
definition table is an association list where a later `define` shadows an
earlier one, as `HashMap::insert` replaces. -/
structure Builder where
  defs : List (String × Definition)

def Builder.lookupDef (bld : Builder) (name : String) : Option Definition :=
  lookupK bld.defs name

def Builder.intern (_ : Builder) (node : Node) : Node := node

def Builder.poly (bld : Builder) (p : PolyRep) : Node := bld.intern (.poly p)

def Builder.var (bld : Builder) (name : String) : Node := bld.intern (.var name)

def Builder.int (bld : Builder) (i : Int) : Node := bld.intern (.poly (Poly.int i))

def Builder.rational (bld : Builder) (r : ℚ) : Node := bld.poly (Poly.rational r)

/-- Model of `Poly::pow_i(self, builder, i)`. The `i32` exponent is embedded as
`Int`; `i as i64` products are exact. -/
def Poly.pow_i (p : PolyRep) (bld : Builder) (i : Int) : Except PolyError PolyRep :=
  if i = 0 then .ok (Poly.int 1)
  else
    match Poly.as_rational p with
    | some r => if r = 0 ∧ i < 0 then .error .divZero else .ok (Poly.rational (r ^ i))
    | none =>
      match p with
      | [(base, fac)] => .ok (Poly.one (base.map (fun e => (e.1, e.2 * i))) (fac ^ i))
      | _ =>
        if 0 < i ∧ i < 4 then .ok (Poly.pow_n p i.toNat)
        else .ok (Poly.one [(Builder.poly bld p, i)] 1)

/-- Model of the free `fn poly(node)` in `builder.rs`. -/
def polyOf (node : Node) : PolyRep :=
  match node with
  | .poly p => p
  | _ => Poly.from_node node

/-- Rust's `collect::<Result<Vec<_>, _>>()`: all values, or the first error. -/
def sequenceResults : List NodeResult → Except Error (List Node)
  | [] => .ok []
  | .error e :: _ => .error e
  | .ok n :: t => (sequenceResults t).map (fun v => n :: v)

def Builder.tuple (bld : Builder) (parts : List NodeResult) : NodeResult :=
  (sequenceResults parts).map (fun v => bld.intern (.tuple v))

/-- Model of `Builder::uniform`: the broadcasting rule applied by every binary
operation. -/
def Builder.uniform (bld : Builder) (a b : Node) (f : Node → Node → NodeResult) :
    NodeResult :=
  match a, b with
  | .tuple ta, .tuple tb =>
    if ta.length ≠ tb.length then .error (.shapeMismatch ta.length tb.length)
    else bld.tuple ((ta.zip tb).map (fun x => f x.1 x.2))
  | .tuple ta, _ => bld.tuple (ta.map (fun x => f x b))
  | _, .tuple tb => bld.tuple (tb.map (fun y => f a y))
  | _, _ => f a b

/-- Model of `Builder::uniform_one`: broadcasting for unary-with-parameter
operations. -/
def Builder.uniform_one {T : Type} (bld : Builder) (a : Node) (t : T)
    (f : Node → T → NodeResult) : NodeResult :=
  match a with
  | .tuple ta => bld.tuple (ta.map (fun x => f x t))
  | _ => f a t

def Builder.add (bld : Builder) (a b : Node) : NodeResult :=
  bld.uniform a b (fun a b => .ok (bld.poly (polyAdd (polyOf a) (polyOf b))))

def Builder.sub (bld : Builder) (a b : Node) : NodeResult :=
  bld.uniform a b (fun a b =>
    .ok (bld.poly (polyAdd (polyOf a) (Poly.mulInt (polyOf b) (-1)))))

def Builder.mul (bld : Builder) (a b : Node) : NodeResult :=
  bld.uniform a b (fun a b => .ok (bld.poly (polyMul (polyOf a) (polyOf b))))

def Builder.div (bld : Builder) (a b : Node) : NodeResult :=
  bld.uniform a b (fun a b =>
    match Poly.pow_i (polyOf b) bld (-1) with
    | .error e => .error (Error.ofPoly e)
    | .ok q => .ok (bld.poly (polyMul (polyOf a) q)))

def Builder.neg (bld : Builder) (a : Node) : NodeResult :=
  bld.mul (bld.int (-1)) a

def Builder.pow_i (bld : Builder) (a : Node) (i : Int) : NodeResult :=
  bld.uniform_one a i (fun a i =>
    match Poly.pow_i (polyOf a) bld i with
    | .error e => .error (Error.ofPoly e)
    | .ok q => .ok (bld.poly q))

def Builder.func (bld : Builder) (f : Func) (g : Node) : NodeResult :=
  bld.uniform_one g f (fun g f => .ok (bld.intern (.func f g)))

/-- Rust `i64 -> i32` checked cast (`i.cast()` in `Builder::pow`). -/
def castI32 (i : Int) : Option Int :=
  if -(2 ^ 31) ≤ i ∧ i < 2 ^ 31 then some i else none

def Builder.pow (bld : Builder) (a b : Node) : NodeResult :=
  bld.uniform a b (fun a b =>
    match b with
    | .poly p =>
      match (Poly.as_int p).bind castI32 with
      | some i => bld.pow_i a i
      | none => do
        let g ← bld.func .log a
        let m ← bld.mul g b
        bld.func .exp m
    | _ => do
      let g ← bld.func .log a
      let m ← bld.mul g b
      bld.func .exp m)

/-! ## The polynomial invariants (spec §3) and their preservation -/

theorem cmpBase_eq_iff (a b : Base) : cmpBase a b = .eq ↔ a = b :=
  ⟨cmpBase_eq a b, fun h => h ▸ cmpBase_refl a⟩

theorem cmpEntry_eq_iff (a b : Node × Int) : cmpEntry a b = .eq ↔ a = b :=
  ⟨cmpEntry_eq a b, fun h => h ▸ cmpEntry_refl a⟩

/-- Strict key-sortedness of a monomial base: base nodes strictly increasing. -/
def BaseSorted (b : Base) : Prop := b.Chain' (fun x y => Node.cmp x.1 y.1 = .lt)

/-- The spec's monomial invariant: base list sorted with no duplicate base node
and no zero exponent. -/
def BaseWf (b : Base) : Prop := BaseSorted b ∧ ∀ e ∈ b, e.2 ≠ 0

/-- The spec's polynomial invariant: entries key-sorted (the canonical-map
embedding of the `HashMap`), no stored coefficient zero, every monomial
well-formed. -/
def PolyWf (p : PolyRep) : Prop :=
  KeySorted cmpBase p ∧ ∀ e ∈ p, e.2 ≠ 0 ∧ BaseWf e.1

instance (b : Base) : Decidable (BaseSorted b) :=
  inferInstanceAs (Decidable (KeySorted Node.cmp b))

instance (b : Base) : Decidable (BaseWf b) :=
  inferInstanceAs (Decidable (BaseSorted b ∧ ∀ e ∈ b, e.2 ≠ 0))

instance (p : PolyRep) : Decidable (PolyWf p) :=
  inferInstanceAs (Decidable (KeySorted cmpBase p ∧ ∀ e ∈ p, e.2 ≠ 0 ∧ BaseWf e.1))

/-- The coefficient of a monomial base in a polynomial (absent bases have
coefficient zero). -/
def coeff (p : PolyRep) (k : Base) : ℚ := (lookupK p k).getD 0

/-- The sum of all values stored at a key in a raw entry list. -/
def entrySum (l : PolyRep) (k : Base) : ℚ :=
  ((l.filter (fun e => e.1 = k)).map (fun e => e.2)).sum

theorem keySorted_iff_pairwiseKeys {κ ν : Type} (c : κ → κ → Ordering)
    (c_trans : ∀ a b d : κ, c a b = .lt → c b d = .lt → c a d = .lt)
    (l : List (κ × ν)) :
    KeySorted c l ↔ l.Pairwise (fun x y => c x.1 y.1 = .lt) := by
  letI : IsTrans (κ × ν) (fun x y => c x.1 y.1 = .lt) :=
    ⟨fun a b d hab hbd => c_trans _ _ _ hab hbd⟩
  exact List.chain'_iff_pairwise

theorem add_to_mem {p : PolyRep} {b : Base} {r : ℚ} :
    ∀ e ∈ add_to p b r, e ∈ p ∨ (e.1 = b ∧ (e.2 = r ∨ e.2 ≠ 0)) := by
  induction p with
  | nil =>
    intro e he
    simp only [add_to, List.mem_singleton] at he
    exact Or.inr ⟨congrArg Prod.fst he, Or.inl (congrArg Prod.snd he)⟩
  | cons hd t ih =>
    obtain ⟨k₀, v₀⟩ := hd
    intro e he
    rcases hc : cmpBase b k₀ with _ | _ | _ <;> simp only [add_to, hc] at he
    · rcases List.mem_cons.1 he with rfl | he'
      · exact Or.inr ⟨rfl, Or.inl rfl⟩
      · exact Or.inl he'
    · have hbk : b = k₀ := cmpBase_eq _ _ hc
      by_cases hz : v₀ + r = 0
      · rw [if_pos hz] at he
        exact Or.inl (List.mem_cons_of_mem _ he)
      · rw [if_neg hz] at he
        rcases List.mem_cons.1 he with rfl | he'
        · exact Or.inr ⟨hbk.symm, Or.inr hz⟩
        · exact Or.inl (List.mem_cons_of_mem _ he')
    · rcases List.mem_cons.1 he with rfl | he'
      · exact Or.inl (List.mem_cons_self _ _)
      · rcases ih e he' with h | h
        · exact Or.inl (List.mem_cons_of_mem _ h)
        · exact Or.inr h

theorem add_to_pairwise {p : PolyRep} {b : Base} {r : ℚ}
    (hp : p.Pairwise (fun x y => cmpBase x.1 y.1 = .lt)) :
    (add_to p b r).Pairwise (fun x y => cmpBase x.1 y.1 = .lt) := by
  induction p with
  | nil => simp [add_to]
  | cons hd t ih =>
    obtain ⟨k₀, v₀⟩ := hd
    rw [List.pairwise_cons] at hp
    rcases hc : cmpBase b k₀ with _ | _ | _ <;> simp only [add_to, hc]
    · rw [List.pairwise_cons]
      refine ⟨?_, List.pairwise_cons.2 hp⟩
      intro e he
      rcases List.mem_cons.1 he with rfl | he'
      · exact hc
      · exact cmpBase_lt_trans _ _ _ hc (hp.1 e he')
    · by_cases hz : v₀ + r = 0
      · rw [if_pos hz]
        exact hp.2
      · rw [if_neg hz]
        rw [List.pairwise_cons]
        exact hp
    · rw [List.pairwise_cons]
      refine ⟨?_, ih hp.2⟩
      intro e he
      rcases add_to_mem e he with h | h
      · exact hp.1 e h
      · rw [h.1]
        have hs := cmpBase_swap b k₀
        rw [hc] at hs
        exact hs.symm

theorem add_to_keySorted {p : PolyRep} {b : Base} {r : ℚ}
    (hp : KeySorted cmpBase p) : KeySorted cmpBase (add_to p b r) := by
  rw [keySorted_iff_pairwiseKeys cmpBase cmpBase_lt_trans] at hp ⊢
  exact add_to_pairwise hp

theorem add_to_lookup {p : PolyRep} (hp : KeySorted cmpBase p) (b : Base) (r : ℚ)
    (k : Base) :
    lookupK (add_to p b r) k =
      if b = k then
        match lookupK p b with
        | none => some r
        | some v => if v + r = 0 then none else some (v + r)
      else lookupK p k := by
  induction p with
  | nil =>
    by_cases hbk : b = k <;> simp [add_to, lookupK, hbk]
  | cons hd t ih =>
    obtain ⟨k₀, v₀⟩ := hd
    have hpp := (keySorted_iff_pairwiseKeys cmpBase cmpBase_lt_trans _).1 hp
    rw [List.pairwise_cons] at hpp
    have iht := ih ((keySorted_iff_pairwiseKeys cmpBase cmpBase_lt_trans _).2 hpp.2)
    rcases hc : cmpBase b k₀ with _ | _ | _ <;> simp only [add_to, hc]
    · have hbk₀ : b ≠ k₀ := by
        intro h
        rw [h, cmpBase_refl] at hc
        simp at hc
      have hnone : lookupK ((k₀, v₀) :: t) b = none := by
        apply lookupK_eq_none_of_lt_all cmpBase cmpBase_eq_iff
        intro e he
        rcases List.mem_cons.1 he with rfl | he'
        · exact hc
        · exact cmpBase_lt_trans _ _ _ hc (hpp.1 e he')
      rw [hnone]
      by_cases hbk : b = k
      · subst hbk
        rw [if_pos rfl]
        show (if b = b then some r else lookupK ((k₀, v₀) :: t) b) = some r
        rw [if_pos rfl]
      · rw [if_neg hbk]
        show (if b = k then some r else lookupK ((k₀, v₀) :: t) k) =
          lookupK ((k₀, v₀) :: t) k
        rw [if_neg hbk]
    · have hbk₀ : b = k₀ := cmpBase_eq _ _ hc
      subst hbk₀
      have htnone : lookupK t b = none := by
        rw [lookupK_eq_none_iff]
        intro e he hek
        have h₂ := hpp.1 e he
        rw [hek, cmpBase_refl] at h₂
        simp at h₂
      have hlook : lookupK ((b, v₀) :: t) b = some v₀ := by simp [lookupK]
      rw [hlook]
      show lookupK (if v₀ + r = 0 then t else (b, v₀ + r) :: t) k =
        if b = k then (if v₀ + r = 0 then none else some (v₀ + r))
        else lookupK ((b, v₀) :: t) k
      by_cases hz : v₀ + r = 0
      · rw [if_pos hz, if_pos hz]
        by_cases hbk : b = k
        · subst hbk
          rw [if_pos rfl]
          exact htnone
        · rw [if_neg hbk]
          show lookupK t k = if b = k then some v₀ else lookupK t k
          rw [if_neg hbk]
      · rw [if_neg hz, if_neg hz]
        by_cases hbk : b = k
        · subst hbk
          rw [if_pos rfl]
          show (if b = b then some (v₀ + r) else lookupK t b) = some (v₀ + r)
          rw [if_pos rfl]
        · rw [if_neg hbk]
          show (if b = k then some (v₀ + r) else lookupK t k) =
            if b = k then some v₀ else lookupK t k
          rw [if_neg hbk, if_neg hbk]
    · have hbk₀ : b ≠ k₀ := by
        intro h
        rw [h, cmpBase_refl] at hc
        simp at hc
      have hk₀b : k₀ ≠ b := fun h => hbk₀ h.symm
      have hred : lookupK ((k₀, v₀) :: t) b = lookupK t b := by
        show (if k₀ = b then some v₀ else lookupK t b) = lookupK t b
        rw [if_neg hk₀b]
      rw [hred]
      by_cases hbk : b = k
      · subst hbk
        rw [if_pos rfl]
        show (if k₀ = b then some v₀ else lookupK (add_to t b r) b) = _
        rw [if_neg hk₀b, iht, if_pos rfl]
      · rw [if_neg hbk]
        by_cases hk₀k : k₀ = k
        · subst hk₀k
          show (if k₀ = k₀ then some v₀ else lookupK (add_to t b r) k₀) =
            if k₀ = k₀ then some v₀ else lookupK t k₀
          rw [if_pos rfl, if_pos rfl]
        · show (if k₀ = k then some v₀ else lookupK (add_to t b r) k) =
            if k₀ = k then some v₀ else lookupK t k
          rw [if_neg hk₀k, if_neg hk₀k, iht, if_neg hbk]

theorem coeff_add_to {p : PolyRep} (hp : KeySorted cmpBase p) (b : Base) (r : ℚ)
    (k : Base) :
    coeff (add_to p b r) k = coeff p k + (if b = k then r else 0) := by
  unfold coeff
  rw [add_to_lookup hp b r k]
  by_cases hbk : b = k
  · subst hbk
    rw [if_pos rfl, if_pos rfl]
    cases hv : lookupK p b with
    | none => simp
    | some v =>
      by_cases hz : v + r = 0 <;> simp [hz]
  · rw [if_neg hbk, if_neg hbk, add_zero]

/-! ## Polynomial addition: invariants and ring laws (claims C2, C7) -/

theorem polyAdd_keySorted {q p : PolyRep} (hp : KeySorted cmpBase p) :
    KeySorted cmpBase (polyAdd p q) := by
  induction q generalizing p with
  | nil => exact hp
  | cons e t ih => exact ih (add_to_keySorted hp)

theorem entrySum_cons (e : Base × ℚ) (t : PolyRep) (k : Base) :
    entrySum (e :: t) k = (if e.1 = k then e.2 else 0) + entrySum t k := by
  unfold entrySum
  by_cases hek : e.1 = k <;> simp [List.filter_cons, hek]

theorem coeff_polyAdd_entrySum (q : PolyRep) {p : PolyRep}
    (hp : KeySorted cmpBase p) (k : Base) :
    coeff (polyAdd p q) k = coeff p k + entrySum q k := by
  induction q generalizing p with
  | nil => simp [polyAdd, entrySum, List.filter]
  | cons e t ih =>
    show coeff (polyAdd (add_to p e.1 e.2) t) k = _
    rw [ih (add_to_keySorted hp), coeff_add_to hp, entrySum_cons, add_assoc]

theorem entrySum_eq_coeff {q : PolyRep} (hq : NodupKeys q) (k : Base) :
    entrySum q k = coeff q k := by
  induction q with
  | nil => simp [entrySum, coeff, lookupK, List.filter]
  | cons e t ih =>
    rw [entrySum_cons]
    rw [NodupKeys, List.map_cons, List.nodup_cons] at hq
    by_cases hek : e.1 = k
    · have hnone : lookupK t k = none := by
        rw [lookupK_eq_none_iff]
        intro x hx hxk
        exact hq.1 (hek ▸ hxk ▸ List.mem_map_of_mem Prod.fst hx)
      rw [ih hq.2]
      simp [coeff, lookupK, hek, hnone]
    · rw [ih hq.2]
      simp [coeff, lookupK, hek]

theorem polyWf_nodupKeys {p : PolyRep} (hp : PolyWf p) : NodupKeys p :=
  keySorted_nodupKeys cmpBase cmpBase_eq_iff cmpBase_lt_trans hp.1

theorem coeff_polyAdd {p q : PolyRep} (hp : PolyWf p) (hq : PolyWf q) (k : Base) :
    coeff (polyAdd p q) k = coeff p k + coeff q k := by
  rw [coeff_polyAdd_entrySum q hp.1 k, entrySum_eq_coeff (polyWf_nodupKeys hq) k]

theorem polyAdd_wfEntries {q p : PolyRep}
    (hp : ∀ e ∈ p, e.2 ≠ 0 ∧ BaseWf e.1) (hq : ∀ e ∈ q, e.2 ≠ 0 ∧ BaseWf e.1) :
    ∀ e ∈ polyAdd p q, e.2 ≠ 0 ∧ BaseWf e.1 := by
  induction q generalizing p with
  | nil => exact hp
  | cons e₀ t ih =>
    intro e he
    refine ih ?_ (fun x hx => hq x (List.mem_cons_of_mem _ hx)) e he
    intro x hx
    rcases add_to_mem x hx with h | h
    · exact hp x h
    · have hqh := hq e₀ (List.mem_cons_self _ _)
      refine ⟨?_, h.1 ▸ hqh.2⟩
      rcases h.2 with h₂ | h₂
      · rw [h₂]
        exact hqh.1
      · exact h₂

theorem polyAdd_wf {p q : PolyRep} (hp : PolyWf p) (hq : PolyWf q) :
    PolyWf (polyAdd p q) :=
  ⟨polyAdd_keySorted hp.1, polyAdd_wfEntries hp.2 hq.2⟩

theorem polyWf_lookup {p : PolyRep} (hp : PolyWf p) (k : Base) :
    lookupK p k = if coeff p k = 0 then none else some (coeff p k) := by
  cases hv : lookupK p k with
  | none => simp [coeff, hv]
  | some v =>
    have hvne : v ≠ 0 := (hp.2 _ (lookupK_mem hv)).1
    simp [coeff, hv, hvne]

/-- Extensionality of the canonical embedding: two well-formed polynomials with
the same coefficient function are the same Rust map value, hence the same
representation. -/
theorem polyWf_ext {p q : PolyRep} (hp : PolyWf p) (hq : PolyWf q)
    (h : ∀ k, coeff p k = coeff q k) : p = q := by
  apply keySorted_ext cmpBase cmpBase_eq_iff cmpBase_swap cmpBase_lt_trans hp.1 hq.1
  intro k
  rw [polyWf_lookup hp, polyWf_lookup hq, h]

theorem polyZero_wf : PolyWf Poly.zero := by
  constructor
  · simp [Poly.zero, KeySorted]
  · simp [Poly.zero]

theorem coeff_zero (k : Base) : coeff Poly.zero k = 0 := by
  simp [coeff, Poly.zero, lookupK]

theorem polyAdd_comm {p q : PolyRep} (hp : PolyWf p) (hq : PolyWf q) :
    polyAdd p q = polyAdd q p :=
  polyWf_ext (polyAdd_wf hp hq) (polyAdd_wf hq hp)
    (fun k => by rw [coeff_polyAdd hp hq, coeff_polyAdd hq hp, add_comm])

theorem polyAdd_assoc {p q r : PolyRep} (hp : PolyWf p) (hq : PolyWf q)
    (hr : PolyWf r) :
    polyAdd (polyAdd p q) r = polyAdd p (polyAdd q r) :=
  polyWf_ext (polyAdd_wf (polyAdd_wf hp hq) hr) (polyAdd_wf hp (polyAdd_wf hq hr))
    (fun k => by
      rw [coeff_polyAdd (polyAdd_wf hp hq) hr, coeff_polyAdd hp hq,
        coeff_polyAdd hp (polyAdd_wf hq hr), coeff_polyAdd hq hr, add_assoc])

theorem polyAdd_zero_right (p : PolyRep) : polyAdd p Poly.zero = p := rfl

theorem polyAdd_zero_left {p : PolyRep} (hp : PolyWf p) :
    polyAdd Poly.zero p = p :=
  polyWf_ext (polyAdd_wf polyZero_wf hp) hp
    (fun k => by rw [coeff_polyAdd polyZero_wf hp, coeff_zero, zero_add])

/-! ## The remaining builder operations -/

def Node.isTuple : Node → Bool
  | .tuple _ => true
  | _ => false

/-- Modelled from the spec: `try_fold` comes from the crate prelude (not among
the given sources); per §4.3, `product`/`sum` "fold with identity 1 / 0
respectively, short-circuiting on the first failure". -/
def try_fold (items : List NodeResult) (init : Node) (f : Node → Node → NodeResult) :
    NodeResult :=
  items.foldl
    (fun acc r =>
      match acc with
      | .error e => .error e
      | .ok a =>
        match r with
        | .error e => .error e
        | .ok b => f a b)
    (.ok init)

def Builder.product (bld : Builder) (factors : List NodeResult) : NodeResult :=
  try_fold factors (bld.int 1) bld.mul

def Builder.sum (bld : Builder) (summands : List NodeResult) : NodeResult :=
  try_fold summands (bld.int 0) bld.add

/-- Model of `Builder::substitute`'s parameter map construction in `apply`:
zip the supplied arguments with the parameter names. -/
def mkSubstMap (args : List Node) (params : List String) : List (String × Node) :=
  (args.zip params).map (fun x => (x.2, x.1))

mutual

/-- Model of `Builder::substitute`: rewrite `Var`s through the map, rebuild
tuples and function applications element-wise, and reconstruct polynomials from
scratch — per monomial, the product of its rational coefficient with every base
raised (after substitution) to its original integer exponent via `pow_i`. The
`i64 → i32` exponent cast panics (`.expect("too high")`) when out of range. -/
def Builder.substitute (bld : Builder) (node : Node) (map : List (String × Node)) :
    NodeResult :=
  match node with
  | .var name =>
    match lookupK map name with
    | some n => .ok n
    | none => .ok (.var name)
  | .tuple parts => bld.tuple (substList bld parts map)
  | .poly p => bld.sum (substPoly bld p map)
  | .func f n =>
    match Builder.substitute bld n map with
    | .error e => .error e
    | .ok n' => bld.func f n'
termination_by structural node

/-- Element-wise substitution into a tuple's parts. -/
def substList (bld : Builder) (l : List Node) (map : List (String × Node)) :
    List NodeResult :=
  match l with
  | [] => []
  | n :: t => Builder.substitute bld n map :: substList bld t map
termination_by structural l

/-- Per-monomial reconstruction: one summand per factor of the polynomial. -/
def substPoly (bld : Builder) (entries : PolyRep) (map : List (String × Node)) :
    List NodeResult :=
  match entries with
  | [] => []
  | (base, fac) :: t =>
    bld.product (Except.ok (bld.rational fac) :: substBase bld base map) ::
      substPoly bld t map
termination_by structural entries

/-- Per-base-entry reconstruction: substitute into the base then re-raise it to
its original exponent. -/
def substBase (bld : Builder) (b : Base) (map : List (String × Node)) :
    List NodeResult :=
  match b with
  | [] => []
  | (v, e) :: t =>
    (match Builder.substitute bld v map with
      | .error err => .error err
      | .ok sv =>
        match castI32 e with
        | none => .error (.panicked "too high")
        | some i => bld.pow_i sv i) :: substBase bld t map
termination_by structural b

end

/-- Model of `Builder::apply`, the juxtaposition operator. -/
def Builder.apply (bld : Builder) (left right : Node) : NodeResult :=
  match left with
  | .var name =>
    match bld.lookupDef name with
    | some d =>
      match right with
      | .tuple parts =>
        if d.args.length = 1 then
          bld.tuple (parts.map (fun p => bld.substitute d.expr (mkSubstMap [p] d.args)))
        else if d.args.length = parts.length then
          bld.substitute d.expr (mkSubstMap parts d.args)
        else .error (.shapeMismatch d.args.length parts.length)
      | _ =>
        if d.args.length = 1 then bld.substitute d.expr (mkSubstMap [right] d.args)
        else .error (.shapeMismatch d.args.length 1)
    | none => bld.mul left right
  | _ => bld.mul left right

/-- Model of `Builder::define` (`HashMap::insert` replaces an existing entry;
the association-list cons shadows likewise). -/
def Builder.define (bld : Builder) (name : String) (args : List String)
    (node : Node) : Builder :=
  ⟨(name, ⟨args, node⟩) :: bld.defs⟩

/-- Model of `Builder::new` / `Builder::init`: seed the four one-argument
definitions by building `FuncApp(tag, x)` over the fresh variable `x`
(`self.func(...)` on a non-tuple argument returns the interned `Func` node). -/
def Builder.new : Builder :=
  ((((⟨[]⟩ : Builder).define "sin" ["x"] (.func .sin (.var "x"))).define
    "cos" ["x"] (.func .cos (.var "x"))).define
    "exp" ["x"] (.func .exp (.var "x"))).define
    "log" ["x"] (.func .log (.var "x"))

/-- Model of `str::parse::<i64>` digit-group accumulation. -/
def digitsValGo (acc : Nat) : List Char → Option Nat
  | [] => some acc
  | c :: t => if c.isDigit then digitsValGo (acc * 10 + (c.toNat - 48)) t else none

def digitsVal : List Char → Option Nat
  | [] => none
  | l => digitsValGo 0 l

/-- Model of Rust's `str::parse::<i64>`: optional sign, at least one digit, all
digits, and the value must fit in `i64`. -/
def parseI64 (l : List Char) : Option Int :=
  match l with
  | '-' :: t => (digitsVal t).bind (fun v =>
      if -(2 ^ 63) ≤ -(v : Int) ∧ -(v : Int) < 2 ^ 63 then some (-(v : Int)) else none)
  | '+' :: t => (digitsVal t).bind (fun v =>
      if -(2 ^ 63) ≤ (v : Int) ∧ (v : Int) < 2 ^ 63 then some (v : Int) else none)
  | t => (digitsVal t).bind (fun v =>
      if -(2 ^ 63) ≤ (v : Int) ∧ (v : Int) < 2 ^ 63 then some (v : Int) else none)

/-- Model of `Builder::decimal`. -/
def Builder.decimal (bld : Builder) (n : String) : NodeResult :=
  match parseI64 n.data with
  | none => .error .integerError
  | some i => .ok (bld.int i)

/-- Split a character list at the first `'.'` (Rust `s.find('.')`), returning
the parts before and after it; `none` when there is no dot. -/
def splitDot : List Char → Option (List Char × List Char)
  | [] => none
  | c :: t =>
    if c = '.' then some ([], t)
    else (splitDot t).map (fun x => (c :: x.1, x.2))

/-- Rust's `10i64.pow(k)`: the value when it fits in `i64`; `none` models the
multiply-with-overflow panic. -/
def pow10i64 (k : Nat) : Option Int :=
  if (10 : Int) ^ k < 2 ^ 63 then some ((10 : Int) ^ k) else none

/-- Model of `Builder::decimal_float`. `s.find('.').unwrap()` panics when the
string has no decimal point; the divisor `10^digits` is computed (and can
panic on overflow) before either digit group is parsed. -/
def Builder.decimal_float (bld : Builder) (s : String) : NodeResult :=
  match splitDot s.data with
  | none => .error (.panicked "called `Option::unwrap()` on a `None` value")
  | some (ip, fp) =>
    match pow10i64 fp.length with
    | none => .error (.panicked "attempt to multiply with overflow")
    | some d =>
      match parseI64 ip with
      | none => .error .integerError
      | some i =>
        match parseI64 fp with
        | none => .error .integerError
        | some j =>
          match bld.div (bld.int j) (bld.int d) with
          | .error e => .error e
          | .ok q => bld.add (bld.int i) q

/-- Model of `Builder::array`: the body is `todo!("arrays")`, which panics
unconditionally — it never returns a value to the caller. -/
def Builder.array (_bld : Builder) (_parts : List NodeResult) : NodeResult :=
  .error (.panicked "not yet implemented: arrays")

/-! ## Polynomial multiplication: invariants and commutativity -/

/-- The exponent of a base node in a monomial (absent nodes have exponent 0). -/
def expOf (b : Base) (k : Node) : Int := (lookupK b k).getD 0

theorem insBase_mem {b : Base} {v : Node} {n : Int} :
    ∀ e ∈ insBase v n b, e ∈ b ∨ (e.1 = v ∧ (e.2 = n ∨ e.2 ≠ 0)) := by
  induction b with
  | nil =>
    intro e he
    simp only [insBase, List.mem_singleton] at he
    exact Or.inr ⟨congrArg Prod.fst he, Or.inl (congrArg Prod.snd he)⟩
  | cons hd t ih =>
    obtain ⟨w, m⟩ := hd
    intro e he
    simp only [insBase] at he
    by_cases hwv : w = v
    · rw [if_pos hwv] at he
      by_cases hz : m + n = 0
      · rw [if_pos hz] at he
        exact Or.inl (List.mem_cons_of_mem _ he)
      · rw [if_neg hz] at he
        rcases List.mem_cons.1 he with rfl | he'
        · exact Or.inr ⟨hwv, Or.inr hz⟩
        · exact Or.inl (List.mem_cons_of_mem _ he')
    · rw [if_neg hwv] at he
      rcases List.mem_cons.1 he with rfl | he'
      · exact Or.inl (List.mem_cons_self _ _)
      · rcases ih e he' with h | h
        · exact Or.inl (List.mem_cons_of_mem _ h)
        · exact Or.inr h

theorem insBase_nodupKeys {b : Base} (hnd : NodupKeys b) (v : Node) (n : Int) :
    NodupKeys (insBase v n b) := by
  induction b with
  | nil => simp [insBase, NodupKeys]
  | cons hd t ih =>
    obtain ⟨w, m⟩ := hd
    rw [NodupKeys, List.map_cons, List.nodup_cons] at hnd
    simp only [insBase]
    by_cases hwv : w = v
    · rw [if_pos hwv]
      by_cases hz : m + n = 0
      · rw [if_pos hz]
        exact hnd.2
      · rw [if_neg hz]
        rw [NodupKeys, List.map_cons, List.nodup_cons]
        exact hnd
    · rw [if_neg hwv]
      rw [NodupKeys, List.map_cons, List.nodup_cons]
      refine ⟨?_, ih hnd.2⟩
      intro hmem
      rw [List.mem_map] at hmem
      obtain ⟨e, he, hew⟩ := hmem
      rcases insBase_mem e he with h | h
      · have hm : e.1 ∈ t.map Prod.fst := List.mem_map_of_mem Prod.fst h
        rw [hew] at hm
        exact hnd.1 hm
      · exact hwv (hew.symm.trans h.1)

theorem insBase_lookup {b : Base} (hnd : NodupKeys b) (v : Node) (n : Int) (k : Node) :
    lookupK (insBase v n b) k =
      if v = k then
        match lookupK b v with
        | none => some n
        | some m => if m + n = 0 then none else some (m + n)
      else lookupK b k := by
  induction b with
  | nil => by_cases hvk : v = k <;> simp [insBase, lookupK, hvk]
  | cons hd t ih =>
    obtain ⟨w, m⟩ := hd
    rw [NodupKeys, List.map_cons, List.nodup_cons] at hnd
    have ihx := ih hnd.2
    simp only [insBase]
    by_cases hwv : w = v
    · subst hwv
      rw [if_pos rfl]
      have hlw : lookupK ((w, m) :: t) w = some m := by simp [lookupK]
      rw [hlw]
      have htn : lookupK t w = none := by
        rw [lookupK_eq_none_iff]
        intro e he hew
        have hm : e.1 ∈ t.map Prod.fst := List.mem_map_of_mem Prod.fst he
        rw [hew] at hm
        exact hnd.1 hm
      show lookupK (if m + n = 0 then t else (w, m + n) :: t) k =
        if w = k then (if m + n = 0 then none else some (m + n))
        else lookupK ((w, m) :: t) k
      by_cases hz : m + n = 0
      · rw [if_pos hz, if_pos hz]
        by_cases hwk : w = k
        · subst hwk
          rw [if_pos rfl]
          exact htn
        · rw [if_neg hwk]
          show lookupK t k = if w = k then some m else lookupK t k
          rw [if_neg hwk]
      · rw [if_neg hz, if_neg hz]
        by_cases hwk : w = k
        · subst hwk
          rw [if_pos rfl]
          show (if w = w then some (m + n) else lookupK t w) = some (m + n)
          rw [if_pos rfl]
        · rw [if_neg hwk]
          show (if w = k then some (m + n) else lookupK t k) =
            if w = k then some m else lookupK t k
          rw [if_neg hwk, if_neg hwk]
    · have hred : lookupK ((w, m) :: t) v = lookupK t v := by
        show (if w = v then some m else lookupK t v) = lookupK t v
        rw [if_neg hwv]
      rw [if_neg hwv]
      by_cases hvk : v = k
      · have hwk : w ≠ k := fun h => hwv (h.trans hvk.symm)
        rw [if_pos hvk, hred]
        show (if w = k then some m else lookupK (insBase v n t) k) = _
        rw [if_neg hwk, ihx, if_pos hvk]
      · rw [if_neg hvk]
        show (if w = k then some m else lookupK (insBase v n t) k) =
          if w = k then some m else lookupK t k
        by_cases hwk : w = k
        · rw [if_pos hwk, if_pos hwk]
        · rw [if_neg hwk, if_neg hwk, ihx, if_neg hvk]

theorem expOf_insBase {b : Base} (hnd : NodupKeys b) (v : Node) (n : Int) (k : Node) :
    expOf (insBase v n b) k = expOf b k + (if v = k then n else 0) := by
  unfold expOf
  rw [insBase_lookup hnd]
  by_cases hvk : v = k
  · subst hvk
    rw [if_pos rfl, if_pos rfl]
    cases hv : lookupK b v with
    | none => simp
    | some m => by_cases hz : m + n = 0 <;> simp [hz]
  · rw [if_neg hvk, if_neg hvk, add_zero]

theorem insBase_nonzero {b : Base} (hb : ∀ e ∈ b, e.2 ≠ 0) {v : Node} {n : Int}
    (hn : n ≠ 0) : ∀ e ∈ insBase v n b, e.2 ≠ 0 := by
  intro e he
  rcases insBase_mem e he with h | h
  · exact hb e h
  · rcases h.2 with h₂ | h₂
    · rw [h₂]
      exact hn
    · exact h₂

theorem mulBase_nodupKeys : ∀ {b a : Base}, NodupKeys a → NodupKeys (mulBase a b)
  | [], _, ha => ha
  | e :: t, a, ha => by
    show NodupKeys (mulBase (insBase e.1 e.2 a) t)
    exact mulBase_nodupKeys (insBase_nodupKeys ha e.1 e.2)

theorem mulBase_nonzero : ∀ {b a : Base}, (∀ e ∈ a, e.2 ≠ 0) → (∀ e ∈ b, e.2 ≠ 0) →
    ∀ e ∈ mulBase a b, e.2 ≠ 0
  | [], _, ha, _ => ha
  | e₀ :: t, a, ha, hb => by
    show ∀ e ∈ mulBase (insBase e₀.1 e₀.2 a) t, e.2 ≠ 0
    exact mulBase_nonzero
      (insBase_nonzero ha (hb e₀ (List.mem_cons_self _ _)))
      (fun x hx => hb x (List.mem_cons_of_mem _ hx))

theorem expOf_cons_of_nodup {e : Node × Int} {t : Base}
    (hnd : NodupKeys (e :: t)) (k : Node) :
    expOf (e :: t) k = (if e.1 = k then e.2 else 0) + expOf t k := by
  rw [NodupKeys, List.map_cons, List.nodup_cons] at hnd
  unfold expOf
  by_cases hek : e.1 = k
  · have htn : lookupK t k = none := by
      rw [lookupK_eq_none_iff]
      intro x hx hxk
      have hm : x.1 ∈ t.map Prod.fst := List.mem_map_of_mem Prod.fst hx
      rw [hxk, ← hek] at hm
      exact hnd.1 hm
    show (if e.1 = k then some e.2 else lookupK t k).getD 0 = _
    rw [if_pos hek, htn]
    simp [hek]
  · show (if e.1 = k then some e.2 else lookupK t k).getD 0 = _
    rw [if_neg hek, if_neg hek, zero_add]

theorem expOf_mulBase : ∀ {b a : Base}, NodupKeys a → NodupKeys b →
    ∀ k, expOf (mulBase a b) k = expOf a k + expOf b k
  | [], a, _, _ => by
    intro k
    show expOf a k = expOf a k + expOf [] k
    simp [expOf, lookupK]
  | e :: t, a, ha, hb => by
    intro k
    show expOf (mulBase (insBase e.1 e.2 a) t) k = _
    have hbt : NodupKeys t := by
      rw [NodupKeys, List.map_cons, List.nodup_cons] at hb
      exact hb.2
    rw [expOf_mulBase (insBase_nodupKeys ha e.1 e.2) hbt k,
      expOf_insBase ha e.1 e.2 k, expOf_cons_of_nodup hb k]
    ring

theorem sortBase_perm (b : Base) : (sortBase b).Perm b :=
  List.perm_insertionSort _ _

theorem sortBase_sorted (b : Base) : List.Sorted entryLe (sortBase b) :=
  List.sorted_insertionSort _ _

theorem sortBase_nodupKeys {b : Base} (hb : NodupKeys b) : NodupKeys (sortBase b) :=
  ((sortBase_perm b).map Prod.fst).nodup_iff.2 hb

theorem sortBase_lookup {b : Base} (hb : NodupKeys b) (k : Node) :
    lookupK (sortBase b) k = lookupK b k :=
  Perm.lookupK_eq (sortBase_perm b) (sortBase_nodupKeys hb) k

theorem baseSorted_nodupKeys {b : Base} (hs : BaseSorted b) : NodupKeys b :=
  keySorted_nodupKeys Node.cmp Node.cmp_eq_iff
    (fun x y z => Node.cmp_lt_trans x y z) hs

theorem cmpEntry_expand (x y : Node × Int) :
    cmpEntry x y = (Node.cmp x.1 y.1).then (lcmp x.2 y.2) := by
  obtain ⟨x₁, x₂⟩ := x
  obtain ⟨y₁, y₂⟩ := y
  rfl

theorem baseSorted_sortBase {b : Base} (hb : NodupKeys b) :
    BaseSorted (sortBase b) := by
  have hs := sortBase_sorted b
  have hnd := sortBase_nodupKeys hb
  letI : IsTrans (Node × Int) (fun x y : Node × Int => Node.cmp x.1 y.1 = .lt) :=
    ⟨fun x y z hxy hyz => Node.cmp_lt_trans _ _ _ hxy hyz⟩
  rw [BaseSorted, List.chain'_iff_pairwise]
  have hnd' : (sortBase b).Pairwise (fun x y => x.1 ≠ y.1) := by
    rw [NodupKeys] at hnd
    exact (List.pairwise_map).1 hnd
  refine (hs.and hnd').imp ?_
  intro x y hxy
  obtain ⟨hle, hne⟩ := hxy
  rcases hc : Node.cmp x.1 y.1 with _ | _ | _
  · rfl
  · exact absurd (Node.cmp_eq _ _ hc) hne
  · exfalso
    apply hle
    rw [cmpEntry_expand, hc]
    rfl

theorem sortBase_eq_of_perm {b c : Base} (hp : b.Perm c) : sortBase b = sortBase c :=
  List.eq_of_perm_of_sorted
    ((sortBase_perm b).trans (hp.trans (sortBase_perm c).symm))
    (sortBase_sorted b) (sortBase_sorted c)

theorem nonzeroBase_lookup {b : Base} (hb : ∀ e ∈ b, e.2 ≠ 0) (k : Node) :
    lookupK b k = if expOf b k = 0 then none else some (expOf b k) := by
  cases hv : lookupK b k with
  | none => simp [expOf, hv]
  | some v =>
    have hvne : v ≠ 0 := hb _ (lookupK_mem hv)
    simp [expOf, hv, hvne]

/-- The merged-and-sorted base of a monomial product is symmetric in its two
factors: both orders produce the same canonical sorted base. -/
theorem sortBase_mulBase_comm {a b : Base} (ha : BaseWf a) (hb : BaseWf b) :
    sortBase (mulBase a b) = sortBase (mulBase b a) := by
  have hand : NodupKeys a := baseSorted_nodupKeys ha.1
  have hbnd : NodupKeys b := baseSorted_nodupKeys hb.1
  apply keySorted_ext Node.cmp Node.cmp_eq_iff Node.cmp_swap
    (fun x y z => Node.cmp_lt_trans x y z)
  · exact baseSorted_sortBase (mulBase_nodupKeys hand)
  · exact baseSorted_sortBase (mulBase_nodupKeys hbnd)
  · intro k
    rw [sortBase_lookup (mulBase_nodupKeys hand), sortBase_lookup (mulBase_nodupKeys hbnd),
      nonzeroBase_lookup (mulBase_nonzero ha.2 hb.2),
      nonzeroBase_lookup (mulBase_nonzero hb.2 ha.2),
      expOf_mulBase hand hbnd, expOf_mulBase hbnd hand, add_comm]

theorem baseWf_sortBase_mulBase {a b : Base} (ha : BaseWf a) (hb : BaseWf b) :
    BaseWf (sortBase (mulBase a b)) := by
  have hand : NodupKeys a := baseSorted_nodupKeys ha.1
  refine ⟨baseSorted_sortBase (mulBase_nodupKeys hand), ?_⟩
  intro e he
  exact mulBase_nonzero ha.2 hb.2 e ((sortBase_perm _).mem_iff.1 he)

/-! ## `polyMul` through the contribution list -/

/-- The cartesian-product contribution list that `impl Mul for Poly`
accumulates with `add_to`. -/
def mulContribs (p q : PolyRep) : PolyRep :=
  (p.map (fun ea =>
    q.map (fun eb => (sortBase (mulBase ea.1 eb.1), ea.2 * eb.2)))).flatten

theorem polyMul_eq (p q : PolyRep) :
    polyMul p q = polyAdd Poly.zero (mulContribs p q) := rfl

theorem mulContribs_mem {p q : PolyRep} :
    ∀ e ∈ mulContribs p q, ∃ ea ∈ p, ∃ eb ∈ q,
      e = (sortBase (mulBase ea.1 eb.1), ea.2 * eb.2) := by
  intro e he
  rw [mulContribs, List.mem_flatten] at he
  obtain ⟨l, hl, hel⟩ := he
  rw [List.mem_map] at hl
  obtain ⟨ea, hea, rfl⟩ := hl
  rw [List.mem_map] at hel
  obtain ⟨eb, heb, rfl⟩ := hel
  exact ⟨ea, hea, eb, heb, rfl⟩

theorem mulContribs_entriesWf {p q : PolyRep}
    (hp : ∀ e ∈ p, e.2 ≠ 0 ∧ BaseWf e.1) (hq : ∀ e ∈ q, e.2 ≠ 0 ∧ BaseWf e.1) :
    ∀ e ∈ mulContribs p q, e.2 ≠ 0 ∧ BaseWf e.1 := by
  intro e he
  obtain ⟨ea, hea, eb, heb, rfl⟩ := mulContribs_mem e he
  exact ⟨mul_ne_zero (hp ea hea).1 (hq eb heb).1,
    baseWf_sortBase_mulBase (hp ea hea).2 (hq eb heb).2⟩

theorem polyMul_wf {p q : PolyRep} (hp : PolyWf p) (hq : PolyWf q) :
    PolyWf (polyMul p q) := by
  rw [polyMul_eq]
  exact ⟨polyAdd_keySorted polyZero_wf.1,
    polyAdd_wfEntries polyZero_wf.2 (mulContribs_entriesWf hp.2 hq.2)⟩

theorem sum_map_add {β : Type} (m : List β) (f h : β → ℚ) :
    (m.map (fun y => f y + h y)).sum = (m.map f).sum + (m.map h).sum := by
  induction m with
  | nil => simp
  | cons a t ih =>
    simp only [List.map_cons, List.sum_cons, ih]
    ring

theorem sum_map_sum_comm {α β : Type} (l : List α) (m : List β) (g : α → β → ℚ) :
    (l.map (fun x => (m.map (fun y => g x y)).sum)).sum =
      (m.map (fun y => (l.map (fun x => g x y)).sum)).sum := by
  induction l with
  | nil =>
    induction m with
    | nil => rfl
    | cons b t ihm =>
      simp only [List.map_nil, List.sum_nil, List.map_cons, List.sum_cons] at ihm ⊢
      rw [← ihm, add_zero]
  | cons a t ih =>
    simp only [List.map_cons, List.sum_cons, ih, sum_map_add]

theorem entrySum_append (l₁ l₂ : PolyRep) (k : Base) :
    entrySum (l₁ ++ l₂) k = entrySum l₁ k + entrySum l₂ k := by
  simp [entrySum, List.filter_append]

theorem entrySum_flatten (L : List PolyRep) (k : Base) :
    entrySum L.flatten k = (L.map (fun l => entrySum l k)).sum := by
  induction L with
  | nil => simp [entrySum, List.filter]
  | cons l t ih => rw [List.flatten_cons, entrySum_append, ih, List.map_cons, List.sum_cons]

theorem entrySum_of_map {α : Type} (q : List α) (F : α → Base × ℚ) (k : Base) :
    entrySum (q.map F) k = (q.map (fun x => if (F x).1 = k then (F x).2 else 0)).sum := by
  induction q with
  | nil => simp [entrySum, List.filter]
  | cons x t ih => rw [List.map_cons, entrySum_cons, ih, List.map_cons, List.sum_cons]

theorem coeff_polyMul (p q : PolyRep) (k : Base) :
    coeff (polyMul p q) k =
      (p.map (fun ea =>
        (q.map (fun eb =>
          if sortBase (mulBase ea.1 eb.1) = k then ea.2 * eb.2 else 0)).sum)).sum := by
  rw [polyMul_eq, coeff_polyAdd_entrySum _ polyZero_wf.1, coeff_zero, zero_add,
    mulContribs, entrySum_flatten, List.map_map]
  congr 1
  apply List.map_congr_left
  intro ea _
  rw [Function.comp_apply, entrySum_of_map]

/-- Commutativity of the embedded `impl Mul for Poly` on well-formed inputs. -/
theorem polyMul_comm {p q : PolyRep} (hp : PolyWf p) (hq : PolyWf q) :
    polyMul p q = polyMul q p := by
  apply polyWf_ext (polyMul_wf hp hq) (polyMul_wf hq hp)
  intro k
  rw [coeff_polyMul, coeff_polyMul, sum_map_sum_comm]
  congr 1
  apply List.map_congr_left
  intro eb heb
  congr 1
  apply List.map_congr_left
  intro ea hea
  rw [sortBase_mulBase_comm (hp.2 ea hea).2 (hq.2 eb heb).2, mul_comm]

/-! ## Well-formedness of the remaining combinators -/

theorem polyOne_wf {base : Base} {fac : ℚ} (hb : NodupKeys base)
    (hnz : ∀ e ∈ base, e.2 ≠ 0) (hf : fac ≠ 0) : PolyWf (Poly.one base fac) := by
  refine ⟨?_, ?_⟩
  · simp [Poly.one, KeySorted]
  · intro e he
    simp only [Poly.one, List.mem_singleton] at he
    subst he
    exact ⟨hf, baseSorted_sortBase hb,
      fun x hx => hnz x ((sortBase_perm base).mem_iff.1 hx)⟩

theorem polyRational_wf (r : ℚ) : PolyWf (Poly.rational r) := by
  unfold Poly.rational
  by_cases hr : r = 0
  · rw [if_pos hr]
    exact polyZero_wf
  · rw [if_neg hr]
    exact polyOne_wf (by simp [NodupKeys]) (by simp) hr

theorem polyInt_wf (i : Int) : PolyWf (Poly.int i) := polyRational_wf _

/-- Shallow node well-formedness: a `Poly` node carries a well-formed
polynomial (trivially true for the other constructors). Every node the builder
constructs satisfies it. -/
def Node.topWf : Node → Prop
  | .poly p => PolyWf p
  | _ => True

instance (n : Node) : Decidable (Node.topWf n) :=
  match n with
  | .poly p => inferInstanceAs (Decidable (PolyWf p))
  | .var _ => inferInstanceAs (Decidable True)
  | .func _ _ => inferInstanceAs (Decidable True)
  | .tuple _ => inferInstanceAs (Decidable True)

theorem from_node_wf {n : Node} (hn : Node.topWf n) : PolyWf (Poly.from_node n) := by
  cases n with
  | poly p => exact hn
  | var s => exact polyOne_wf (by simp [NodupKeys]) (by simp) one_ne_zero
  | func f a => exact polyOne_wf (by simp [NodupKeys]) (by simp) one_ne_zero
  | tuple t => exact polyOne_wf (by simp [NodupKeys]) (by simp) one_ne_zero

theorem polyOf_wf {n : Node} (hn : Node.topWf n) : PolyWf (polyOf n) := by
  cases n with
  | poly p => exact hn
  | var s =>
    show PolyWf (Poly.from_node (Node.var s))
    apply from_node_wf
    simp [Node.topWf]
  | func f a =>
    show PolyWf (Poly.from_node (Node.func f a))
    apply from_node_wf
    simp [Node.topWf]
  | tuple t =>
    show PolyWf (Poly.from_node (Node.tuple t))
    apply from_node_wf
    simp [Node.topWf]

theorem mulRat_wf {p : PolyRep} (hp : PolyWf p) {k : ℚ} (hk : k ≠ 0) :
    PolyWf (Poly.mulRat p k) := by
  refine ⟨?_, ?_⟩
  · have h₁ := hp.1
    unfold KeySorted at h₁ ⊢
    unfold Poly.mulRat
    rw [List.chain'_map]
    exact h₁
  · intro e he
    rw [Poly.mulRat, List.mem_map] at he
    obtain ⟨x, hx, rfl⟩ := he
    exact ⟨mul_ne_zero (hp.2 x hx).1 hk, (hp.2 x hx).2⟩

theorem pow_n_go_wf : ∀ (fuel : Nat) {s acc : PolyRep} (n : Nat),
    PolyWf s → PolyWf acc → PolyWf (pow_n_go fuel s n acc)
  | 0, s, acc, n, hs, hacc => by
    simp only [pow_n_go]
    split
    · exact polyMul_wf hacc hs
    · exact hacc
  | fuel + 1, s, acc, n, hs, hacc => by
    simp only [pow_n_go]
    split
    · apply pow_n_go_wf fuel _ (polyMul_wf hs hs)
      split
      · exact polyMul_wf hacc hs
      · exact hacc
    · split
      · exact polyMul_wf hacc hs
      · exact hacc

theorem pow_n_wf {p : PolyRep} (hp : PolyWf p) (n : Nat) : PolyWf (Poly.pow_n p n) :=
  pow_n_go_wf n n hp (polyInt_wf 1)

theorem mapExp_nodupKeys {b : Base} (hb : NodupKeys b) (i : Int) :
    NodupKeys (b.map (fun e => (e.1, e.2 * i))) := by
  unfold NodupKeys at hb ⊢
  rw [List.map_map]
  exact hb

theorem pow_i_wf {p : PolyRep} (hp : PolyWf p) (bld : Builder) (i : Int)
    {q : PolyRep} (h : Poly.pow_i p bld i = .ok q) : PolyWf q := by
  unfold Poly.pow_i at h
  by_cases hi : i = 0
  · rw [if_pos hi] at h
    cases h
    exact polyInt_wf 1
  · rw [if_neg hi] at h
    cases har : Poly.as_rational p with
    | some r =>
      rw [har] at h
      simp only [] at h
      split at h
      · exact absurd h (by simp)
      · cases h
        exact polyRational_wf _
    | none =>
      rw [har] at h
      simp only [] at h
      rcases hpe : p with _ | ⟨⟨base, fac⟩, t⟩
      · rw [hpe, Poly.as_rational] at har
        simp at har
      · subst hpe
        rcases t with _ | ⟨e₂, t₂⟩
        · simp only [] at h
          cases h
          have hbw : BaseWf base := (hp.2 (base, fac) (List.mem_singleton.2 rfl)).2
          have hfac : fac ≠ 0 := (hp.2 (base, fac) (List.mem_singleton.2 rfl)).1
          apply polyOne_wf (mapExp_nodupKeys (baseSorted_nodupKeys hbw.1) i)
          · intro e he
            rw [List.mem_map] at he
            obtain ⟨x, hx, rfl⟩ := he
            exact mul_ne_zero (hbw.2 x hx) hi
          · exact zpow_ne_zero i hfac
        · simp only [] at h
          split at h
          · cases h
            exact pow_n_wf hp _
          · cases h
            apply polyOne_wf (by simp [NodupKeys]) (by simp [hi]) one_ne_zero

/-! ## Scalar/broadcast evaluation of the builder's binary operations -/

theorem uniform_scalar {bld : Builder} {a b : Node} {f : Node → Node → NodeResult}
    (ha : a.isTuple = false) (hb : b.isTuple = false) :
    bld.uniform a b f = f a b := by
  cases a <;> cases b <;> first
    | rfl
    | simp [Node.isTuple] at ha hb

theorem uniform_one_scalar {T : Type} {bld : Builder} {a : Node} {t : T}
    {f : Node → T → NodeResult} (ha : a.isTuple = false) :
    bld.uniform_one a t f = f a t := by
  cases a <;> first
    | rfl
    | simp [Node.isTuple] at ha

theorem uniform_mismatch {bld : Builder} {ta tb : List Node}
    {f : Node → Node → NodeResult} (h : ta.length ≠ tb.length) :
    bld.uniform (.tuple ta) (.tuple tb) f =
      .error (.shapeMismatch ta.length tb.length) := by
  show (if ta.length ≠ tb.length then _ else _) = _
  rw [if_pos h]

theorem uniform_left_broadcast {bld : Builder} {ta : List Node} {k : Node}
    {f : Node → Node → NodeResult} (hk : k.isTuple = false) :
    bld.uniform (.tuple ta) k f = bld.tuple (ta.map (fun x => f x k)) := by
  cases k <;> first
    | rfl
    | simp [Node.isTuple] at hk

theorem uniform_right_broadcast {bld : Builder} {tb : List Node} {k : Node}
    {f : Node → Node → NodeResult} (hk : k.isTuple = false) :
    bld.uniform k (.tuple tb) f = bld.tuple (tb.map (fun y => f k y)) := by
  cases k <;> first
    | rfl
    | simp [Node.isTuple] at hk

theorem add_scalar {bld : Builder} {a b : Node} (ha : a.isTuple = false)
    (hb : b.isTuple = false) :
    bld.add a b = .ok (.poly (polyAdd (polyOf a) (polyOf b))) := by
  unfold Builder.add
  rw [uniform_scalar ha hb]
  rfl

theorem mul_scalar {bld : Builder} {a b : Node} (ha : a.isTuple = false)
    (hb : b.isTuple = false) :
    bld.mul a b = .ok (.poly (polyMul (polyOf a) (polyOf b))) := by
  unfold Builder.mul
  rw [uniform_scalar ha hb]
  rfl

theorem div_scalar {bld : Builder} {a b : Node} (ha : a.isTuple = false)
    (hb : b.isTuple = false) :
    bld.div a b =
      match Poly.pow_i (polyOf b) bld (-1) with
      | .error e => .error (Error.ofPoly e)
      | .ok q => .ok (.poly (polyMul (polyOf a) q)) := by
  unfold Builder.div
  rw [uniform_scalar ha hb]
  rfl

theorem func_scalar {bld : Builder} {f : Func} {g : Node} (hg : g.isTuple = false) :
    bld.func f g = .ok (.func f g) := by
  unfold Builder.func
  rw [uniform_one_scalar hg]
  rfl

/-! ## Claim C7 -/

/-- Claim C7 counterexample: the `impl MulAssign<Rational>` scalar multiply,
applied with the rational zero to the combinator-produced polynomial
`rational(1)`, stores the zero coefficient it produces — violating the
"no stored coefficient is zero" invariant the claim asserts for every
combinator-produced value. -/
theorem Poly.mulRat_zero_breaks_invariant :
    PolyWf (Poly.rational 1) ∧
      Poly.mulRat (Poly.rational 1) 0 = [([], 0)] ∧
      ¬ PolyWf (Poly.mulRat (Poly.rational 1) 0) :=
  ⟨by decide, by decide, by decide⟩

/-- Claim C7 (amended): every public combinator — zero, rational/integer
constants, `from_node`, addition, multiplication, integer power — produces a
well-formed polynomial (nonzero coefficients, each base list strictly sorted
with no duplicate base and no zero exponent); scalar multiplication preserves
the invariant for every nonzero scalar (the zero scalar is the counterexample
above). -/
theorem Poly.combinators_preserve_invariant :
    PolyWf Poly.zero
    ∧ (∀ r : ℚ, PolyWf (Poly.rational r))
    ∧ (∀ i : Int, PolyWf (Poly.int i))
    ∧ (∀ n : Node, Node.topWf n → PolyWf (Poly.from_node n))
    ∧ (∀ p q : PolyRep, PolyWf p → PolyWf q → PolyWf (polyAdd p q))
    ∧ (∀ p q : PolyRep, PolyWf p → PolyWf q → PolyWf (polyMul p q))
    ∧ (∀ (p : PolyRep) (k : ℚ), PolyWf p → k ≠ 0 → PolyWf (Poly.mulRat p k))
    ∧ (∀ (bld : Builder) (p : PolyRep) (i : Int) (q : PolyRep), PolyWf p →
        Poly.pow_i p bld i = .ok q → PolyWf q) :=
  ⟨polyZero_wf, polyRational_wf, polyInt_wf, fun _ hn => from_node_wf hn,
    fun _ _ hp hq => polyAdd_wf hp hq, fun _ _ hp hq => polyMul_wf hp hq,
    fun _ _ hp hk => mulRat_wf hp hk, fun bld _ i _ hp h => pow_i_wf hp bld i h⟩

/-- Witness for the amended C7 at concrete inputs. -/
theorem Poly.combinators_preserve_invariant_witness :
    PolyWf (polyAdd (Poly.rational 1) (Poly.rational 2)) ∧
      PolyWf (Poly.mulRat (Poly.rational 3) 2) :=
  ⟨Poly.combinators_preserve_invariant.2.2.2.2.1 _ _ (by decide) (by decide),
    Poly.combinators_preserve_invariant.2.2.2.2.2.2.1 _ _ (by decide) (by decide)⟩

/-! ## Claim C2 -/

/-- Claim C2: polynomial addition is commutative and associative with zero as
its identity, and consequently — at the builder level, on scalar operands —
`add` commutes and `(a+b)+c` and `a+(b+c)` intern the identical handle. -/
theorem Builder.add_laws :
    (∀ p q : PolyRep, PolyWf p → PolyWf q → polyAdd p q = polyAdd q p)
    ∧ (∀ p q r : PolyRep, PolyWf p → PolyWf q → PolyWf r →
        polyAdd (polyAdd p q) r = polyAdd p (polyAdd q r))
    ∧ (∀ p : PolyRep, polyAdd p Poly.zero = p)
    ∧ (∀ p : PolyRep, PolyWf p → polyAdd Poly.zero p = p)
    ∧ (∀ (bld : Builder) (a b : Node), a.isTuple = false → b.isTuple = false →
        Node.topWf a → Node.topWf b → bld.add a b = bld.add b a)
    ∧ (∀ (bld : Builder) (a b c : Node),
        a.isTuple = false → b.isTuple = false → c.isTuple = false →
        Node.topWf a → Node.topWf b → Node.topWf c →
        (bld.add a b).bind (fun x => bld.add x c) =
          (bld.add b c).bind (fun y => bld.add a y)) := by
  refine ⟨fun p q hp hq => polyAdd_comm hp hq,
    fun p q r hp hq hr => polyAdd_assoc hp hq hr,
    polyAdd_zero_right,
    fun p hp => polyAdd_zero_left hp, ?_, ?_⟩
  · intro bld a b ha hb hwa hwb
    rw [add_scalar ha hb, add_scalar hb ha,
      polyAdd_comm (polyOf_wf hwa) (polyOf_wf hwb)]
  · intro bld a b c ha hb hc hwa hwb hwc
    rw [add_scalar ha hb, add_scalar hb hc]
    show bld.add (.poly (polyAdd (polyOf a) (polyOf b))) c =
      bld.add a (.poly (polyAdd (polyOf b) (polyOf c)))
    have h₁ : (Node.poly (polyAdd (polyOf a) (polyOf b))).isTuple = false := rfl
    have h₂ : (Node.poly (polyAdd (polyOf b) (polyOf c))).isTuple = false := rfl
    rw [add_scalar h₁ hc, add_scalar ha h₂]
    show Except.ok (Node.poly (polyAdd (polyAdd (polyOf a) (polyOf b)) (polyOf c))) =
      .ok (.poly (polyAdd (polyOf a) (polyAdd (polyOf b) (polyOf c))))
    rw [polyAdd_assoc (polyOf_wf hwa) (polyOf_wf hwb) (polyOf_wf hwc)]

/-- Witness for C2 at concrete inputs: `(x + y) + 3` and `x + (y + 3)` produce
the identical handle. -/
theorem Builder.add_laws_witness :
    (Builder.new.add (.var "x") (.var "y")).bind
        (fun s => Builder.new.add s (Builder.new.int 3)) =
      (Builder.new.add (.var "y") (Builder.new.int 3)).bind
        (fun s => Builder.new.add (.var "x") s) :=
  Builder.add_laws.2.2.2.2.2 Builder.new (.var "x") (.var "y") (Builder.new.int 3)
    (by decide) (by decide) (by decide) (by decide) (by decide) (by decide)

/-! ## Claim C5 -/

/-- Claim C5: in every binary builder operation (`add`, `sub`, `mul`, `div`,
`pow`), two tuple operands of different lengths fail with a shape-mismatch
error carrying both lengths; with exactly one tuple operand, the scalar is
broadcast element-wise over the tuple by `uniform` (the broadcasting rule all
five share), and in particular `tuple(x,y) + k = tuple(x+k, y+k)` for
scalars `x`, `y`, `k`. -/
theorem Builder.binop_broadcast_spec :
    (∀ (bld : Builder) (ta tb : List Node), ta.length ≠ tb.length →
      bld.add (.tuple ta) (.tuple tb) = .error (.shapeMismatch ta.length tb.length)
      ∧ bld.sub (.tuple ta) (.tuple tb) = .error (.shapeMismatch ta.length tb.length)
      ∧ bld.mul (.tuple ta) (.tuple tb) = .error (.shapeMismatch ta.length tb.length)
      ∧ bld.div (.tuple ta) (.tuple tb) = .error (.shapeMismatch ta.length tb.length)
      ∧ bld.pow (.tuple ta) (.tuple tb) = .error (.shapeMismatch ta.length tb.length))
    ∧ (∀ (bld : Builder) (ta : List Node) (k : Node) (f : Node → Node → NodeResult),
        k.isTuple = false →
        bld.uniform (.tuple ta) k f = bld.tuple (ta.map (fun x => f x k))
        ∧ bld.uniform k (.tuple ta) f = bld.tuple (ta.map (fun y => f k y)))
    ∧ (∀ (bld : Builder) (x y k : Node), x.isTuple = false → y.isTuple = false →
        k.isTuple = false →
        bld.add (.tuple [x, y]) k = bld.tuple [bld.add x k, bld.add y k]) := by
  refine ⟨?_, ?_, ?_⟩
  · intro bld ta tb h
    exact ⟨uniform_mismatch h, uniform_mismatch h, uniform_mismatch h,
      uniform_mismatch h, uniform_mismatch h⟩
  · intro bld ta k f hk
    exact ⟨uniform_left_broadcast hk, uniform_right_broadcast hk⟩
  · intro bld x y k hx hy hk
    rw [add_scalar hx hk, add_scalar hy hk]
    show bld.uniform (.tuple [x, y]) k _ = _
    rw [uniform_left_broadcast hk]
    rfl

/-- Witness for C5 at concrete inputs. -/
theorem Builder.binop_broadcast_spec_witness :
    Builder.new.add (.tuple [.var "a"]) (.tuple []) = .error (.shapeMismatch 1 0) ∧
      Builder.new.add (.tuple [.var "x", .var "y"]) (Builder.new.int 1) =
        Builder.new.tuple
          [Builder.new.add (.var "x") (Builder.new.int 1),
            Builder.new.add (.var "y") (Builder.new.int 1)] :=
  ⟨(Builder.binop_broadcast_spec.1 Builder.new [.var "a"] [] (by decide)).1,
    Builder.binop_broadcast_spec.2.2 Builder.new (.var "x") (.var "y")
      (Builder.new.int 1) (by decide) (by decide) (by decide)⟩

/-! ## Claim C9 -/

/-- Claim C9 counterexample: `array` does not return a not-implemented error
value to its caller — its body is `todo!("arrays")`, a panic (modelled as the
`panicked` outcome, representing a crash rather than a returned `Error`). -/
theorem Builder.array_counterexample :
    Builder.new.array [] = .error (.panicked "not yet implemented: arrays") ∧
      Builder.new.array [] ≠ .error Error.notImplemented :=
  ⟨rfl, by decide⟩

/-- Claim C9 (amended): for every argument sequence, `array` fails by
panicking with the not-yet-implemented message — the failure is a crash, not
one of the returned error kinds. -/
theorem Builder.array_always_panics (bld : Builder) (parts : List NodeResult) :
    bld.array parts = .error (.panicked "not yet implemented: arrays") := rfl

/-! ## Claim C4 -/

theorem pow_i_zero_exponent (bld : Builder) (p : PolyRep) :
    Poly.pow_i p bld 0 = .ok (Poly.int 1) := by
  unfold Poly.pow_i
  rw [if_pos rfl]

/-- The only failure of `Poly::pow_i`: the divide-by-zero error, raised exactly
for the zero polynomial (the rational constant zero) with a negative exponent. -/
theorem pow_i_error_iff (bld : Builder) (p : PolyRep) (i : Int) (hp : PolyWf p) :
    Poly.pow_i p bld i = .error PolyError.divZero ↔ p = Poly.zero ∧ i < 0 := by
  unfold Poly.pow_i
  by_cases hi : i = 0
  · rw [if_pos hi]
    subst hi
    simp
  · rw [if_neg hi]
    rcases p with _ | ⟨⟨b0, c0⟩, t⟩
    · show (if (0 : ℚ) = 0 ∧ i < 0 then Except.error PolyError.divZero
        else Except.ok (Poly.rational ((0 : ℚ) ^ i))) = _ ↔ _
      by_cases hneg : i < 0
      · rw [if_pos ⟨rfl, hneg⟩]
        simp [Poly.zero, hneg]
      · rw [if_neg (fun h => hneg h.2)]
        simp [hneg]
    · rcases t with _ | ⟨e₂, t₂⟩
      · have hc0 : c0 ≠ 0 := (hp.2 (b0, c0) (List.mem_singleton.2 rfl)).1
        by_cases hb0 : b0 = []
        · subst hb0
          show (if c0 = 0 ∧ i < 0 then Except.error PolyError.divZero
            else Except.ok (Poly.rational (c0 ^ i))) = _ ↔ _
          rw [if_neg (fun h => hc0 h.1)]
          simp [Poly.zero]
        · have har : Poly.as_rational [(b0, c0)] = none := by
            simp [Poly.as_rational, hb0]
          rw [har]
          simp [Poly.zero]
      · have har : Poly.as_rational ((b0, c0) :: e₂ :: t₂) = none := rfl
        rw [har]
        simp only []
        split
        · simp [Poly.zero]
        · simp [Poly.zero]

/-- Claim C4: `pow_i(p, 0)` is the rational one for every polynomial, including
zero; `pow_i` fails — with the division-by-zero error — exactly when `p` is the
rational constant zero and the exponent is negative, succeeding on every other
input; and hence `div` (which is `mul(a, pow_i(b, -1))`) fails exactly when the
divisor is the literal rational zero. -/
theorem Poly.pow_i_spec :
    (∀ (bld : Builder) (p : PolyRep), Poly.pow_i p bld 0 = .ok (Poly.int 1))
    ∧ (∀ (bld : Builder) (p : PolyRep) (i : Int), PolyWf p →
        (Poly.pow_i p bld i = .error PolyError.divZero ↔ p = Poly.zero ∧ i < 0))
    ∧ (∀ (bld : Builder) (p : PolyRep) (i : Int), PolyWf p →
        ¬(p = Poly.zero ∧ i < 0) → ∃ q, Poly.pow_i p bld i = .ok q)
    ∧ (∀ (bld : Builder) (a b : Node), a.isTuple = false → b.isTuple = false →
        Node.topWf b →
        (bld.div a b = .error Error.divZero ↔ b = .poly Poly.zero)) := by
  refine ⟨pow_i_zero_exponent, pow_i_error_iff, ?_, ?_⟩
  · intro bld p i hp hn
    cases h : Poly.pow_i p bld i with
    | ok q => exact ⟨q, rfl⟩
    | error e =>
      cases e
      exact absurd ((pow_i_error_iff bld p i hp).1 h) hn
  · intro bld a b ha hb hwb
    rw [div_scalar ha hb]
    have hiff := pow_i_error_iff bld (polyOf b) (-1) (polyOf_wf hwb)
    cases hpw : Poly.pow_i (polyOf b) bld (-1) with
    | error e =>
      cases e
      simp only []
      constructor
      · intro _
        have h₂ := (hiff.1 hpw).1
        cases b with
        | poly p =>
          rw [show polyOf (.poly p) = p from rfl] at h₂
          rw [h₂]
        | var s => exact absurd h₂ (by simp [polyOf, Poly.from_node, Poly.one, Poly.zero])
        | func f n => exact absurd h₂ (by simp [polyOf, Poly.from_node, Poly.one, Poly.zero])
        | tuple t => exact absurd h₂ (by simp [polyOf, Poly.from_node, Poly.one, Poly.zero])
      · intro _
        rfl
    | ok q =>
      simp only []
      constructor
      · intro h
        exact absurd h (by simp)
      · intro hb0
        subst hb0
        have h₂ := hiff.2 ⟨rfl, by norm_num⟩
        rw [h₂] at hpw
        exact absurd hpw (by simp)

/-- Witness for C4 at concrete inputs: `0⁻¹` fails with division-by-zero,
`0^0 = 1`, `3⁻¹` succeeds, and `x / 0` fails. -/
theorem Poly.pow_i_spec_witness :
    Poly.pow_i Poly.zero Builder.new 0 = .ok (Poly.int 1) ∧
      (Poly.pow_i Poly.zero Builder.new (-1) = .error PolyError.divZero ↔
        Poly.zero = Poly.zero ∧ (-1 : Int) < 0) ∧
      (∃ q, Poly.pow_i (Poly.rational 3) Builder.new (-1) = .ok q) ∧
      (Builder.new.div (.var "x") (.poly Poly.zero) = .error Error.divZero ↔
        Node.poly Poly.zero = .poly Poly.zero) :=
  ⟨Poly.pow_i_spec.1 Builder.new Poly.zero,
    Poly.pow_i_spec.2.1 Builder.new Poly.zero (-1) (by decide),
    Poly.pow_i_spec.2.2.1 Builder.new (Poly.rational 3) (-1) (by decide) (by decide),
    Poly.pow_i_spec.2.2.2 Builder.new (.var "x") (.poly Poly.zero)
      (by decide) (by decide) (by decide)⟩

theorem isTuple_var (s : String) : (Node.var s).isTuple = false := rfl

theorem isTuple_func (f : Func) (n : Node) : (Node.func f n).isTuple = false := rfl

theorem isTuple_poly (p : PolyRep) : (Node.poly p).isTuple = false := rfl

/-! ## Claim C3 -/

/-- Claim C3: on scalar operands, `pow(a, b)` delegates to the exact integer
power `pow_i(a, i)` whenever `b` is a polynomial reducing to an integer
constant representable as an `i32` exponent; otherwise it returns
`exp(log(a) * b)`, and — since polynomial multiplication commutes — the handle
built by `a ^ b` is identical to the one built by `exp(b * log(a))`. -/
theorem Builder.pow_spec :
    (∀ (bld : Builder) (a : Node) (p : PolyRep) (i : Int), a.isTuple = false →
      (Poly.as_int p).bind castI32 = some i →
      bld.pow a (.poly p) = bld.pow_i a i)
    ∧ (∀ (bld : Builder) (a b : Node), a.isTuple = false → b.isTuple = false →
        (∀ p, b = .poly p → (Poly.as_int p).bind castI32 = none) →
        bld.pow a b =
          .ok (.func .exp (.poly (polyMul (polyOf (.func .log a)) (polyOf b)))))
    ∧ (∀ (bld : Builder) (a b : Node), a.isTuple = false → b.isTuple = false →
        Node.topWf b →
        (∀ p, b = .poly p → (Poly.as_int p).bind castI32 = none) →
        (bld.func .log a).bind
            (fun g => (bld.mul b g).bind (fun m => bld.func .exp m)) =
          bld.pow a b) := by
  have hmain : ∀ (bld : Builder) (a b : Node), a.isTuple = false →
      b.isTuple = false → (∀ p, b = .poly p → (Poly.as_int p).bind castI32 = none) →
      bld.pow a b =
        .ok (.func .exp (.poly (polyMul (polyOf (.func .log a)) (polyOf b)))) := by
    intro bld a b ha hb h
    show bld.uniform a b _ = _
    rw [uniform_scalar ha hb]
    have hlog : bld.func .log a = .ok (.func .log a) := func_scalar ha
    cases b with
    | tuple t => simp [Node.isTuple] at hb
    | poly p =>
      show (match (Poly.as_int p).bind castI32 with
        | some i => bld.pow_i a i
        | none => (bld.func .log a).bind
            (fun g => (bld.mul g (.poly p)).bind (fun m => bld.func .exp m))) = _
      rw [h p rfl]
      show (bld.func .log a).bind
        (fun g => (bld.mul g (.poly p)).bind (fun m => bld.func .exp m)) = _
      rw [hlog]
      show (bld.mul (.func .log a) (.poly p)).bind (fun m => bld.func .exp m) = _
      rw [mul_scalar (isTuple_func _ _) (isTuple_poly _)]
      show bld.func .exp (.poly (polyMul (polyOf (.func .log a)) (polyOf (.poly p)))) = _
      rw [func_scalar (isTuple_poly _)]
    | var s =>
      show (bld.func .log a).bind
        (fun g => (bld.mul g (.var s)).bind (fun m => bld.func .exp m)) = _
      rw [hlog]
      show (bld.mul (.func .log a) (.var s)).bind (fun m => bld.func .exp m) = _
      rw [mul_scalar (isTuple_func _ _) (isTuple_var _)]
      show bld.func .exp (.poly (polyMul (polyOf (.func .log a)) (polyOf (.var s)))) = _
      rw [func_scalar (isTuple_poly _)]
    | func fn n =>
      show (bld.func .log a).bind
        (fun g => (bld.mul g (.func fn n)).bind (fun m => bld.func .exp m)) = _
      rw [hlog]
      show (bld.mul (.func .log a) (.func fn n)).bind (fun m => bld.func .exp m) = _
      rw [mul_scalar (isTuple_func _ _) (isTuple_func _ _)]
      show bld.func .exp
        (.poly (polyMul (polyOf (.func .log a)) (polyOf (.func fn n)))) = _
      rw [func_scalar (isTuple_poly _)]
  refine ⟨?_, hmain, ?_⟩
  · intro bld a p i ha h
    show bld.uniform a (.poly p) _ = _
    rw [uniform_scalar ha (isTuple_poly _)]
    show (match (Poly.as_int p).bind castI32 with
      | some i => bld.pow_i a i
      | none => (bld.func .log a).bind
          (fun g => (bld.mul g (.poly p)).bind (fun m => bld.func .exp m))) = _
    rw [h]
  · intro bld a b ha hb hwb h
    rw [func_scalar ha]
    show (bld.mul b (.func .log a)).bind (fun m => bld.func .exp m) = _
    rw [mul_scalar hb (isTuple_func _ _)]
    show bld.func .exp (.poly (polyMul (polyOf b) (polyOf (.func .log a)))) = _
    rw [func_scalar (isTuple_poly _), hmain bld a b ha hb h,
      polyMul_comm (polyOf_wf hwb) (polyOf_wf (by cases a <;> simp [Node.topWf]))]

/-- Witness for C3 at concrete inputs: `3 ^ 3` takes the integer-power branch,
and `a ^ b` on variables builds the same handle as `exp(b * log(a))`. -/
theorem Builder.pow_spec_witness :
    Builder.new.pow (Builder.new.int 3) (.poly (Poly.int 3)) =
        Builder.new.pow_i (Builder.new.int 3) 3 ∧
      (Builder.new.func .log (.var "a")).bind
          (fun g => (Builder.new.mul (.var "b") g).bind
            (fun m => Builder.new.func .exp m)) =
        Builder.new.pow (.var "a") (.var "b") :=
  ⟨Builder.pow_spec.1 Builder.new (Builder.new.int 3) (Poly.int 3) 3
      (by decide) (by decide),
    Builder.pow_spec.2.2 Builder.new (.var "a") (.var "b")
      (by decide) (by decide) (by decide) (fun p hp => by simp at hp)⟩

/-! ## Rational-constant arithmetic through the polynomial combinators -/

theorem Poly.rational_zero : Poly.rational 0 = [] := by
  simp [Poly.rational, Poly.zero]

theorem Poly.rational_of_ne {r : ℚ} (hr : r ≠ 0) : Poly.rational r = [([], r)] := by
  unfold Poly.rational
  rw [if_neg hr]
  rfl

theorem as_rational_rational (r : ℚ) : Poly.as_rational (Poly.rational r) = some r := by
  by_cases hr : r = 0
  · subst hr
    rw [Poly.rational_zero]
    rfl
  · rw [Poly.rational_of_ne hr]
    rfl

theorem polyAdd_rational (a b : ℚ) :
    polyAdd (Poly.rational a) (Poly.rational b) = Poly.rational (a + b) := by
  by_cases hb : b = 0
  · subst hb
    rw [Poly.rational_zero, add_zero]
    rfl
  · by_cases ha : a = 0
    · subst ha
      rw [Poly.rational_zero, Poly.rational_of_ne hb, zero_add, Poly.rational_of_ne hb]
      rfl
    · rw [Poly.rational_of_ne ha, Poly.rational_of_ne hb]
      show (if a + b = 0 then [] else [([], a + b)]) = Poly.rational (a + b)
      by_cases hab : a + b = 0
      · rw [if_pos hab, hab, Poly.rational_zero]
      · rw [if_neg hab, Poly.rational_of_ne hab]

theorem polyMul_rational (a b : ℚ) :
    polyMul (Poly.rational a) (Poly.rational b) = Poly.rational (a * b) := by
  by_cases ha : a = 0
  · subst ha
    rw [Poly.rational_zero, zero_mul, Poly.rational_zero]
    rfl
  · by_cases hb : b = 0
    · subst hb
      rw [Poly.rational_of_ne ha, Poly.rational_zero, mul_zero, Poly.rational_zero]
      rfl
    · rw [Poly.rational_of_ne ha, Poly.rational_of_ne hb,
        Poly.rational_of_ne (mul_ne_zero ha hb)]
      rfl

theorem Poly.pow_i_rational (bld : Builder) {r : ℚ} (i : Int) (hr : r ≠ 0) :
    Poly.pow_i (Poly.rational r) bld i = .ok (Poly.rational (r ^ i)) := by
  unfold Poly.pow_i
  by_cases hi : i = 0
  · subst hi
    rw [if_pos rfl, zpow_zero]
    simp [Poly.int]
  · rw [if_neg hi, as_rational_rational]
    show (if r = 0 ∧ i < 0 then Except.error PolyError.divZero
        else Except.ok (Poly.rational (r ^ i))) = _
    rw [if_neg (fun h => hr h.1)]

theorem polyOf_rational (bld : Builder) (r : ℚ) :
    polyOf (bld.rational r) = Poly.rational r := rfl

theorem pow_i_scalar {bld : Builder} {a : Node} {i : Int} (ha : a.isTuple = false) :
    bld.pow_i a i =
      match Poly.pow_i (polyOf a) bld i with
      | .error e => .error (Error.ofPoly e)
      | .ok q => .ok (bld.poly q) := by
  unfold Builder.pow_i
  rw [uniform_one_scalar ha]

/-! ## Full cancellation of a monomial base against its negated copy -/

theorem lookupK_mapExp : ∀ (b : Base) (i : Int) (k : Node),
    lookupK (b.map (fun e => (e.1, e.2 * i))) k = (lookupK b k).map (fun n => n * i)
  | [], _, _ => rfl
  | e :: t, i, k => by
    show (if e.1 = k then some (e.2 * i) else lookupK (t.map _) k) = _
    by_cases hek : e.1 = k
    · rw [if_pos hek]
      show _ = (if e.1 = k then some e.2 else lookupK t k).map _
      rw [if_pos hek]
      rfl
    · rw [if_neg hek]
      show _ = (if e.1 = k then some e.2 else lookupK t k).map _
      rw [if_neg hek]
      exact lookupK_mapExp t i k

/-- Multiplying a well-formed monomial base by the sorted base of the same
monomial with all exponents negated cancels every factor: the merged base is
empty. -/
theorem mulBase_self_inv {b : Base} (hb : BaseWf b) :
    mulBase b (sortBase (b.map (fun e => (e.1, e.2 * -1)))) = [] := by
  have hnd : NodupKeys b := baseSorted_nodupKeys hb.1
  have hndm : NodupKeys (b.map (fun e => (e.1, e.2 * -1))) := mapExp_nodupKeys hnd (-1)
  have hndc : NodupKeys (sortBase (b.map (fun e => (e.1, e.2 * -1)))) :=
    sortBase_nodupKeys hndm
  have hcz : ∀ e ∈ sortBase (b.map (fun e => (e.1, e.2 * -1))), e.2 ≠ 0 := by
    intro e he
    have hm : e ∈ b.map (fun e => (e.1, e.2 * -1)) := (sortBase_perm _).mem_iff.1 he
    rw [List.mem_map] at hm
    obtain ⟨x, hx, rfl⟩ := hm
    exact mul_ne_zero (hb.2 x hx) (by norm_num)
  have hexp : ∀ k, expOf (mulBase b (sortBase (b.map (fun e => (e.1, e.2 * -1))))) k = 0 := by
    intro k
    rw [expOf_mulBase hnd hndc k]
    have h₁ : expOf (sortBase (b.map (fun e => (e.1, e.2 * -1)))) k = -expOf b k := by
      unfold expOf
      rw [sortBase_lookup hndm, lookupK_mapExp]
      cases lookupK b k <;> simp
    rw [h₁]
    ring
  cases hmb : mulBase b (sortBase (b.map (fun e => (e.1, e.2 * -1)))) with
  | nil => rfl
  | cons e t =>
    exfalso
    have h₀ := hexp e.1
    rw [hmb] at h₀
    have hl : lookupK (e :: t) e.1 = some e.2 := by
      show (if e.1 = e.1 then some e.2 else lookupK t e.1) = some e.2
      rw [if_pos rfl]
    rw [expOf, hl, Option.getD_some] at h₀
    exact mulBase_nonzero hb.2 hcz e (hmb ▸ List.mem_cons_self e t) h₀

/-- Self-division of a handle whose polynomial is one well-formed non-constant
monomial: the reciprocal monomial is formed exponent-wise, and the product
cancels to the rational 1. -/
theorem div_self_monomial {bld : Builder} {a : Node} {b : Base} {fac : ℚ}
    (ha : a.isTuple = false) (hpo : polyOf a = [(b, fac)]) (hbw : BaseWf b)
    (hbne : b ≠ []) (hfac : fac ≠ 0) :
    bld.div a a = .ok (bld.rational 1) := by
  rw [div_scalar ha ha, hpo]
  have hpow : Poly.pow_i [(b, fac)] bld (-1) =
      .ok [(sortBase (b.map (fun e => (e.1, e.2 * -1))), fac⁻¹)] := by
    unfold Poly.pow_i
    rw [if_neg (by norm_num : ¬(-1 : ℤ) = 0)]
    have har : Poly.as_rational [(b, fac)] = none := by
      show (if b = [] then some fac else none) = none
      rw [if_neg hbne]
    rw [har]
    show Except.ok (Poly.one (b.map (fun e => (e.1, e.2 * -1))) (fac ^ (-1 : ℤ))) = _
    rw [zpow_neg_one]
    rfl
  rw [hpow]
  have hmul : polyMul [(b, fac)]
      [(sortBase (b.map (fun e => (e.1, e.2 * -1))), fac⁻¹)] = [([], fac * fac⁻¹)] := by
    show add_to []
      (sortBase (mulBase b (sortBase (b.map (fun e => (e.1, e.2 * -1)))))) (fac * fac⁻¹) = _
    rw [mulBase_self_inv hbw]
    rfl
  show Except.ok (Node.poly (polyMul [(b, fac)]
      [(sortBase (b.map (fun e => (e.1, e.2 * -1))), fac⁻¹)])) = _
  rw [hmul, mul_inv_cancel₀ hfac]
  have h1 : Poly.rational 1 = [([], (1 : ℚ))] := Poly.rational_of_ne one_ne_zero
  show Except.ok (Node.poly [([], (1 : ℚ))]) = Except.ok (Node.poly (Poly.rational 1))
  rw [h1]

/-! ## Claim C8 -/

/-- Counterexample to C8's general clause: the built handle for `x + y` is not
the literal rational zero, yet dividing it by itself does not yield the handle
for 1 — the quotient keeps the opaque wrapped reciprocal `(x + y)⁻¹` in each
monomial instead of cancelling. -/
theorem Builder.div_self_counterexample :
    Builder.add Builder.new (.var "x") (.var "y") =
      .ok (Node.poly [([(Node.var "x", 1)], (1 : ℚ)), ([(Node.var "y", 1)], (1 : ℚ))]) ∧
    (Node.poly [([(Node.var "x", 1)], (1 : ℚ)), ([(Node.var "y", 1)], (1 : ℚ))]) ≠
      Builder.new.rational 0 ∧
    Builder.div Builder.new
      (Node.poly [([(Node.var "x", 1)], (1 : ℚ)), ([(Node.var "y", 1)], (1 : ℚ))])
      (Node.poly [([(Node.var "x", 1)], (1 : ℚ)), ([(Node.var "y", 1)], (1 : ℚ))]) ≠
      .ok (Builder.new.rational 1) :=
  ⟨by decide, by decide, by decide⟩

/-- Claim C8 (amended): dividing a handle by itself yields the handle for 1
when the divisor's polynomial is a nonzero rational constant — there
`pow_i(p, -1)` produces the exact reciprocal and the product is `rational(1)` —
and, more generally, whenever it is a single well-formed non-constant monomial
with nonzero coefficient. (It does not hold for every nonzero handle: see the
multi-monomial counterexample.) -/
theorem Builder.div_self_spec :
    (∀ (bld : Builder) (r : ℚ), r ≠ 0 →
        bld.pow_i (bld.rational r) (-1) = .ok (bld.rational r⁻¹) ∧
        bld.mul (bld.rational r) (bld.rational r⁻¹) = .ok (bld.rational 1) ∧
        bld.div (bld.rational r) (bld.rational r) = .ok (bld.rational 1)) ∧
    (∀ (bld : Builder) (a : Node) (b : Base) (fac : ℚ),
        a.isTuple = false → polyOf a = [(b, fac)] → BaseWf b → b ≠ [] → fac ≠ 0 →
        bld.div a a = .ok (bld.rational 1)) := by
  constructor
  · intro bld r hr
    have hnt : (bld.rational r).isTuple = false := rfl
    have hnt' : (bld.rational r⁻¹).isTuple = false := rfl
    refine ⟨?_, ?_, ?_⟩
    · rw [pow_i_scalar hnt, polyOf_rational, Poly.pow_i_rational bld (-1) hr,
        zpow_neg_one]
      rfl
    · rw [mul_scalar hnt hnt', polyOf_rational, polyOf_rational, polyMul_rational,
        mul_inv_cancel₀ hr]
      rfl
    · rw [div_scalar hnt hnt, polyOf_rational, Poly.pow_i_rational bld (-1) hr,
        zpow_neg_one]
      show Except.ok (Node.poly (polyMul (Poly.rational r) (Poly.rational r⁻¹))) =
        Except.ok (bld.rational 1)
      rw [polyMul_rational, mul_inv_cancel₀ hr]
      rfl
  · intro bld a b fac ha hpo hbw hbne hfac
    exact div_self_monomial ha hpo hbw hbne hfac

/-- Witness for C8 at concrete inputs: `2 / 2` and `x / x` both build the
handle for the rational 1. -/
theorem Builder.div_self_spec_witness :
    Builder.new.div (Builder.new.rational 2) (Builder.new.rational 2) =
        .ok (Builder.new.rational 1) ∧
      Builder.new.div (.var "x") (.var "x") = .ok (Builder.new.rational 1) :=
  ⟨(Builder.div_self_spec.1 Builder.new 2 (by decide)).2.2,
    Builder.div_self_spec.2 Builder.new (.var "x") [(.var "x", 1)] 1
      (by decide) (by decide) (by decide) (by decide) (by decide)⟩

/-! ## Claim C10 -/

theorem polyOf_int (bld : Builder) (i : Int) :
    polyOf (bld.int i) = Poly.rational (i : ℚ) := rfl

/-- Counterexample to C10: on a string with no decimal point,
`decimal_float` panics on `s.find('.').unwrap()` — it does not return an
integer-format error. -/
theorem Builder.decimal_float_counterexample :
    Builder.new.decimal_float "5" =
        .error (.panicked "called `Option::unwrap()` on a `None` value") ∧
      Builder.new.decimal_float "5" ≠ .error .integerError :=
  ⟨by decide, by decide⟩

/-- Claim C10 (amended): `decimal_float(s)` splits `s` at the first decimal
point and, when `10^digits` fits `i64` and both digit groups parse as `i64`,
returns the handle for `intPart + fracPart / 10^digits`; a malformed digit
group yields an integer-format error. But it is not total: a string with no
decimal point panics on `unwrap`, and a fractional part long enough to
overflow `10i64.pow` panics before the digit groups are parsed. -/
theorem Builder.decimal_float_spec :
    (∀ (bld : Builder) (s : String), splitDot s.data = none →
        bld.decimal_float s =
          .error (.panicked "called `Option::unwrap()` on a `None` value")) ∧
    (∀ (bld : Builder) (s : String) (ip fp : List Char) (d i j : Int),
        splitDot s.data = some (ip, fp) → pow10i64 fp.length = some d →
        parseI64 ip = some i → parseI64 fp = some j →
        bld.decimal_float s = .ok (bld.rational ((i : ℚ) + (j : ℚ) / (d : ℚ)))) ∧
    (∀ (bld : Builder) (s : String) (ip fp : List Char) (d : Int),
        splitDot s.data = some (ip, fp) → pow10i64 fp.length = some d →
        parseI64 ip = none → bld.decimal_float s = .error .integerError) ∧
    (∀ (bld : Builder) (s : String) (ip fp : List Char) (d i : Int),
        splitDot s.data = some (ip, fp) → pow10i64 fp.length = some d →
        parseI64 ip = some i → parseI64 fp = none →
        bld.decimal_float s = .error .integerError) ∧
    (∀ (bld : Builder) (s : String) (ip fp : List Char),
        splitDot s.data = some (ip, fp) → pow10i64 fp.length = none →
        bld.decimal_float s =
          .error (.panicked "attempt to multiply with overflow")) := by
  refine ⟨?_, ?_, ?_, ?_, ?_⟩
  · intro bld s hs
    simp only [Builder.decimal_float, hs]
  · intro bld s ip fp d i j hs hd hi hj
    have hdpos : 0 < d := by
      unfold pow10i64 at hd
      split at hd
      · cases hd
        positivity
      · exact absurd hd (by simp)
    have hdne : (d : ℚ) ≠ 0 := by
      intro h
      rw [Int.cast_eq_zero] at h
      omega
    simp only [Builder.decimal_float, hs, hd, hi, hj]
    have h₁ : (bld.int j).isTuple = false := rfl
    have h₂ : (bld.int d).isTuple = false := rfl
    have hdiv : bld.div (bld.int j) (bld.int d) =
        .ok (bld.rational ((j : ℚ) * ((d : ℚ))⁻¹)) := by
      rw [div_scalar h₁ h₂, polyOf_int, polyOf_int,
        Poly.pow_i_rational bld (-1) hdne, zpow_neg_one]
      show Except.ok (Node.poly (polyMul (Poly.rational (j : ℚ))
        (Poly.rational ((d : ℚ))⁻¹))) = _
      rw [polyMul_rational]
      rfl
    rw [hdiv]
    have h₃ : (bld.int i).isTuple = false := rfl
    have h₄ : (bld.rational ((j : ℚ) * ((d : ℚ))⁻¹)).isTuple = false := rfl
    show bld.add (bld.int i) (bld.rational ((j : ℚ) * ((d : ℚ))⁻¹)) = _
    rw [add_scalar h₃ h₄, polyOf_int, polyOf_rational, polyAdd_rational,
      div_eq_mul_inv]
    rfl
  · intro bld s ip fp d hs hd hi
    simp only [Builder.decimal_float, hs, hd, hi]
  · intro bld s ip fp d i hs hd hi hj
    simp only [Builder.decimal_float, hs, hd, hi, hj]
  · intro bld s ip fp hs hd
    simp only [Builder.decimal_float, hs, hd]

/-- Witness for C10 at a concrete input: `decimal_float "2.5"` builds the
handle for the rational `2 + 5/10`. -/
theorem Builder.decimal_float_spec_witness :
    Builder.new.decimal_float "2.5" =
      .ok (Builder.new.rational (((2 : ℤ) : ℚ) + ((5 : ℤ) : ℚ) / ((10 : ℤ) : ℚ))) :=
  Builder.decimal_float_spec.2.1 Builder.new "2.5" ['2'] ['5'] 10 2 5
    (by decide) (by decide) (by decide) (by decide)

/-! ## Claim C6 -/

instance : DecidableEq Definition := fun a b =>
  decidable_of_iff (a.args = b.args ∧ a.expr = b.expr) (by
    cases a
    cases b
    simp)

/-- Claim C6: applying a `Var` naming a registered definition to a `Tuple`
broadcasts a one-parameter definition over the elements, substitutes an
arity-matching definition once with all elements, and otherwise fails with a
shape mismatch; concretely, applying `f(x) = x * x` to `(p, q)` yields the
tuple `(p * p, q * q)` of element-wise products. -/
theorem Builder.apply_tuple_spec :
    (∀ (bld : Builder) (name : String) (d : Definition) (parts : List Node),
        bld.lookupDef name = some d → d.args.length = 1 →
        bld.apply (.var name) (.tuple parts) =
          bld.tuple (parts.map
            (fun p => bld.substitute d.expr (mkSubstMap [p] d.args)))) ∧
    (∀ (bld : Builder) (name : String) (d : Definition) (parts : List Node),
        bld.lookupDef name = some d → d.args.length ≠ 1 →
        d.args.length = parts.length →
        bld.apply (.var name) (.tuple parts) =
          bld.substitute d.expr (mkSubstMap parts d.args)) ∧
    (∀ (bld : Builder) (name : String) (d : Definition) (parts : List Node),
        bld.lookupDef name = some d → d.args.length ≠ 1 →
        d.args.length ≠ parts.length →
        bld.apply (.var name) (.tuple parts) =
          .error (.shapeMismatch d.args.length parts.length)) ∧
    ((Builder.new.define "f" ["x"]
        (.poly (polyMul (Poly.from_node (.var "x")) (Poly.from_node (.var "x"))))).apply
        (.var "f") (.tuple [.var "p", .var "q"]) =
      .ok (.tuple [.poly (polyMul (polyOf (.var "p")) (polyOf (.var "p"))),
        .poly (polyMul (polyOf (.var "q")) (polyOf (.var "q")))])) := by
  refine ⟨?_, ?_, ?_, by decide⟩
  · intro bld name d parts hlk h1
    simp only [Builder.apply, hlk]
    rw [if_pos h1]
  · intro bld name d parts hlk h1 hlen
    simp only [Builder.apply, hlk]
    rw [if_neg h1, if_pos hlen]
  · intro bld name d parts hlk h1 hlen
    simp only [Builder.apply, hlk]
    rw [if_neg h1, if_neg hlen]

/-- Witness for C6 at concrete inputs: the one-parameter `sin` broadcasts over
a pair, and a two-parameter definition applied to a single-element tuple fails
with `ShapeMismatch(2, 1)`. -/
theorem Builder.apply_tuple_spec_witness :
    Builder.new.apply (.var "sin") (.tuple [.var "p", .var "q"]) =
        Builder.new.tuple ([Node.var "p", Node.var "q"].map
          (fun p => Builder.new.substitute (.func .sin (.var "x"))
            (mkSubstMap [p] ["x"]))) ∧
      (Builder.new.define "g" ["x", "y"] (.var "x")).apply (.var "g")
          (.tuple [.var "p"]) = .error (.shapeMismatch 2 1) :=
  ⟨Builder.apply_tuple_spec.1 Builder.new "sin" ⟨["x"], .func .sin (.var "x")⟩
      [.var "p", .var "q"] (by decide) (by decide),
    Builder.apply_tuple_spec.2.2.1 (Builder.new.define "g" ["x", "y"] (.var "x"))
      "g" ⟨["x", "y"], .var "x"⟩ [.var "p"] (by decide) (by decide) (by decide)⟩

end Bullet
